import Mathlib

/-!
Verification of `Scripts/UsefulFunctions.py` (Chapter2_Crabeaters).

Shallow embedding of the repository's data-preparation functions over exact
rationals (floating point numbers are modelled as `ℚ`, NaN as `Option.none`,
timestamps as integer hours or year/month records).  External library calls
(the cosima-cookbook catalog, xarray/pandas array primitives, sklearn's
BallTree) are modelled by their documented semantics; the catalog fetch
results are passed in as explicit arguments.
-/

namespace Crabeaters

/-- Python's `%` operator on rationals (sign follows the divisor, here only
used with positive divisor 360). -/
def pymod (a b : ℚ) : ℚ := a - b * ⌊a / b⌋

/-- First-occurrence deduplication, the semantics of `pandas.unique` /
`Series.unique` (order of first appearance is kept). -/
def uniqueFirst {α : Type} [DecidableEq α] : List α → List α
  | [] => []
  | a :: rest => a :: uniqueFirst (rest.filter (fun b => decide (b ≠ a)))
termination_by l => l.length
decreasing_by
  simp only [List.length_cons]
  exact Nat.lt_succ_of_le (List.length_filter_le _ _)

/-- `Option`-valued traversal of a list, modelling a loop whose body may
fail (raise); `none` models a raised exception. -/
def mapOpt {α β : Type} (f : α → Option β) : List α → Option (List β)
  | [] => some []
  | a :: rest => (f a).bind fun b => (mapOpt f rest).map fun r => b :: r

/-!
## `getACCESSdata_SO` (UsefulFunctions.py lines 31-81)

The two `cc.querying.getvar` calls are external catalog fetches; their
results are the explicit arguments `vararray` (the raw field) and `area_t`
(the reference ocean snapshot).  A field is its variable name, its time
coordinate (hours, as `ℤ`), its named y/x coordinate axes, the names of any
leftover coordinate variables, and its data payload indexed (time, y, x).
-/

structure OField where
  name : String
  time : List ℤ
  yname : String
  yvals : List ℚ
  xname : String
  xvals : List ℚ
  extra : List String
  data : List (List (List ℚ))
deriving DecidableEq

structure AreaT where
  yt_ocean : List ℚ
  xt_ocean : List ℚ
deriving DecidableEq

/-- The ice-data branch of `getACCESSdata_SO` (lines 58-72): subtract 12
hours from every timestamp, overwrite the native `ni`/`nj` index axes with
`area_t`'s `xt_ocean`/`yt_ocean` coordinate vectors, rename the axes to the
ocean convention and drop leftover coordinates when more than the three
retained ones are present.  `none` models the `ValueError`/`KeyError` xarray
raises when the raw field does not carry the native ice axes or the
coordinate lengths do not match. -/
def iceCorrect (va : OField) (area_t : AreaT) : Option OField :=
  if va.yname = "nj" ∧ va.xname = "ni" ∧
      va.yvals.length = area_t.yt_ocean.length ∧
      va.xvals.length = area_t.xt_ocean.length then
    some ⟨va.name, va.time.map (fun t => t - 12), "yt_ocean", area_t.yt_ocean,
          "xt_ocean", area_t.xt_ocean,
          if 3 + va.extra.length > 3 then [] else va.extra, va.data⟩
  else none

/-- Label-based latitude slicing `sel(axis = slice(minlat, maxlat))`
(lines 77-80): on a monotonically increasing axis xarray keeps the
contiguous block of labels from the first one `≥ minlat` to the last one
`≤ maxlat` (both endpoints included). -/
def bandSlice (minlat maxlat : ℚ) (l : List ℚ) : List ℚ :=
  (l.dropWhile (fun y => decide (y < minlat))).takeWhile (fun y => decide (y ≤ maxlat))

/-- `sel` on the y axis named `axis`: fails (KeyError, modelled `none`) when
the field's y axis has a different name; otherwise slices the y coordinate
vector and every time slab of the data payload to the latitude band. -/
def selY (axis : String) (minlat maxlat : ℚ) (va : OField) : Option OField :=
  if va.yname = axis then
    some ⟨va.name, va.time, va.yname, bandSlice minlat maxlat va.yvals,
          va.xname, va.xvals, va.extra,
          va.data.map (fun slab =>
            (((va.yvals.zip slab).dropWhile (fun p => decide (p.1 < minlat))).takeWhile
              (fun p => decide (p.1 ≤ maxlat))).map (fun p => p.2))⟩
  else none

/-- `getACCESSdata_SO` (lines 31-81).  `vararray` stands for the result of
the catalog fetch of `var`, `area_t` for the fetch of the reference ocean
field; when `ice_data` is true the ice corrections are applied first, then
the field is subset to the `[minlat, maxlat]` latitude band, on the
`yu_ocean` axis when the variable is named `u` or `v` and on `yt_ocean`
otherwise. -/
def getACCESSdata_SO (vararray : OField) (area_t : AreaT)
    (minlat maxlat : ℚ) (ice_data : Bool) : Option OField :=
  (if ice_data then iceCorrect vararray area_t else some vararray).bind
    (fun va =>
      if va.name = "u" ∨ va.name = "v" then selY "yu_ocean" minlat maxlat va
      else selY "yt_ocean" minlat maxlat va)

/-- `getACCESSdata_SO` with the source's default latitude band
`minlat = -90, maxlat = -45` (the Southern Ocean). -/
def getACCESSdata_SO_defaults (vararray : OField) (area_t : AreaT)
    (ice_data : Bool) : Option OField :=
  getACCESSdata_SO vararray area_t (-90) (-45) ice_data

/-- On a sorted list, the contiguous label slice equals the filter to the
closed band. -/
theorem bandSlice_eq_filter (minlat maxlat : ℚ) :
    ∀ l : List ℚ, l.Pairwise (· ≤ ·) →
      bandSlice minlat maxlat l
        = l.filter (fun y => decide (minlat ≤ y ∧ y ≤ maxlat)) := by
  intro l hl
  induction l with
  | nil => rfl
  | cons a t ih =>
    rcases List.pairwise_cons.mp hl with ⟨ha, ht⟩
    by_cases hlo : a < minlat
    · have h1 : bandSlice minlat maxlat (a :: t) = bandSlice minlat maxlat t := by
        simp [bandSlice, List.dropWhile, hlo]
      have h2 : (a :: t).filter (fun y => decide (minlat ≤ y ∧ y ≤ maxlat))
          = t.filter (fun y => decide (minlat ≤ y ∧ y ≤ maxlat)) := by
        simp [List.filter, not_le.mpr hlo]
      rw [h1, h2, ih ht]
    · push_neg at hlo
      have hallge : ∀ y ∈ a :: t, minlat ≤ y := by
        intro y hy
        rcases List.mem_cons.mp hy with rfl | hy
        · exact hlo
        · exact le_trans hlo (ha y hy)
      have hdrop : (a :: t).dropWhile (fun y => decide (y < minlat)) = a :: t := by
        apply List.dropWhile_eq_self_iff.mpr
        simp [not_lt.mpr hlo]
      -- on a sorted list whose entries are all ≥ minlat, takeWhile (≤ maxlat)
      -- agrees with the band filter
      have key : ∀ l' : List ℚ, l'.Pairwise (· ≤ ·) → (∀ y ∈ l', minlat ≤ y) →
          l'.takeWhile (fun y => decide (y ≤ maxlat))
            = l'.filter (fun y => decide (minlat ≤ y ∧ y ≤ maxlat)) := by
        intro l'
        induction l' with
        | nil => intro _ _; rfl
        | cons b u ihu =>
          intro hp hge
          rcases List.pairwise_cons.mp hp with ⟨hb, hu⟩
          by_cases hbm : b ≤ maxlat
          · have h1 : (b :: u).takeWhile (fun y => decide (y ≤ maxlat))
                = b :: u.takeWhile (fun y => decide (y ≤ maxlat)) := by
              simp [List.takeWhile, hbm]
            have hminb : minlat ≤ b := hge b (List.mem_cons_self b u)
            have h2 : (b :: u).filter (fun y => decide (minlat ≤ y ∧ y ≤ maxlat))
                = b :: u.filter (fun y => decide (minlat ≤ y ∧ y ≤ maxlat)) := by
              simp [List.filter, hbm, hminb]
            rw [h1, h2, ihu hu (fun y hy => hge y (List.mem_cons_of_mem b hy))]
          · have h1 : (b :: u).takeWhile (fun y => decide (y ≤ maxlat)) = [] := by
              simp [List.takeWhile, hbm]
            have h2 : (b :: u).filter (fun y => decide (minlat ≤ y ∧ y ≤ maxlat)) = [] := by
              apply List.filter_eq_nil_iff.mpr
              intro y hy
              rcases List.mem_cons.mp hy with rfl | hy2
              · simp [hbm]
              · have hniy : ¬y ≤ maxlat := fun hc => hbm (le_trans (hb y hy2) hc)
                simp [hniy]
            rw [h1, h2]
      rw [bandSlice, hdrop, key (a :: t) hl hallge]

theorem selY_eq_some {axis : String} {minlat maxlat : ℚ} {va out : OField}
    (h : selY axis minlat maxlat va = some out) :
    va.yname = axis ∧ out.yname = va.yname ∧ out.name = va.name
    ∧ out.time = va.time ∧ out.xname = va.xname ∧ out.xvals = va.xvals
    ∧ out.yvals = bandSlice minlat maxlat va.yvals := by
  unfold selY at h
  by_cases hax : va.yname = axis
  · rw [if_pos hax] at h
    cases h
    exact ⟨hax, rfl, rfl, rfl, rfl, rfl, rfl⟩
  · rw [if_neg hax] at h
    cases h

theorem iceCorrect_eq_some {va : OField} {area_t : AreaT} {pre : OField}
    (h : iceCorrect va area_t = some pre) :
    pre.name = va.name ∧ pre.time = va.time.map (fun t => t - 12)
    ∧ pre.yname = "yt_ocean" ∧ pre.yvals = area_t.yt_ocean
    ∧ pre.xname = "xt_ocean" ∧ pre.xvals = area_t.xt_ocean := by
  unfold iceCorrect at h
  by_cases hg : va.yname = "nj" ∧ va.xname = "ni"
      ∧ va.yvals.length = area_t.yt_ocean.length
      ∧ va.xvals.length = area_t.xt_ocean.length
  · rw [if_pos hg] at h
    cases h
    exact ⟨rfl, rfl, rfl, rfl, rfl, rfl⟩
  · rw [if_neg hg] at h
    cases h

def iceRaw0 : OField := ⟨"aice", [0], "nj", [-50, -40], "ni", [10], [], [[[1], [2]]]⟩

def areaT0 : AreaT := ⟨[-50, -40], [10]⟩

def iceOut0 : OField := ⟨"aice", [-12], "yt_ocean", [-50], "xt_ocean", [10], [], [[[1]]]⟩

/-- C1 counterexample: for a concrete ice field whose reference ocean grid
`area_t` has `yt_ocean = [-50, -40]`, the field returned by
`getACCESSdata_SO` (with the default band `[-90, -45]`) has y coordinate
vector `[-50]`, which is not element-wise equal to `area_t`'s `yt_ocean`
vector: the final latitude subsetting step removes `-40`. -/
theorem getACCESSdata_SO_ice_yvals_ne_area_t :
    ((getACCESSdata_SO iceRaw0 areaT0 (-90) (-45) true).map OField.yvals
        = some [(-50 : ℚ)])
    ∧ (getACCESSdata_SO iceRaw0 areaT0 (-90) (-45) true).map OField.yvals
        ≠ some areaT0.yt_ocean := by
  constructor
  · decide
  · decide

/-- C1 (amended): for every ice-origin field returned by `getACCESSdata_SO`
(with a sorted reference grid), every timestamp equals the raw timestamp
minus 12 hours, the axes carry the ocean names `yt_ocean`/`xt_ocean`, the
x coordinate vector equals `area_t`'s `xt_ocean` vector, and the y
coordinate vector equals `area_t`'s `yt_ocean` vector restricted to the
requested latitude band `[minlat, maxlat]` (the subsetting step of the same
function shortens it; full element-wise equality fails, see the
counterexample). -/
theorem getACCESSdata_SO_ice_time_and_coords
    (va : OField) (area_t : AreaT) (minlat maxlat : ℚ) (out : OField)
    (hsat : area_t.yt_ocean.Pairwise (· ≤ ·))
    (h : getACCESSdata_SO va area_t minlat maxlat true = some out) :
    out.time = va.time.map (fun t => t - 12)
    ∧ out.yname = "yt_ocean" ∧ out.xname = "xt_ocean"
    ∧ out.xvals = area_t.xt_ocean
    ∧ out.yvals = area_t.yt_ocean.filter (fun y => decide (minlat ≤ y ∧ y ≤ maxlat)) := by
  unfold getACCESSdata_SO at h
  simp only [if_true] at h
  cases hpre : iceCorrect va area_t with
  | none => rw [hpre] at h; cases h
  | some pre =>
    rw [hpre] at h
    simp only [Option.some_bind] at h
    obtain ⟨hname, htime, hyn, hyv, hxn, hxv⟩ := iceCorrect_eq_some hpre
    by_cases huv : pre.name = "u" ∨ pre.name = "v"
    · rw [if_pos huv] at h
      obtain ⟨hax, -⟩ := selY_eq_some h
      rw [hyn] at hax
      exact absurd hax (by decide)
    · rw [if_neg huv] at h
      obtain ⟨-, hoyn, -, hot, hoxn, hoxv, hoyv⟩ := selY_eq_some h
      refine ⟨?_, ?_, ?_, ?_, ?_⟩
      · rw [hot, htime]
      · rw [hoyn, hyn]
      · rw [hoxn, hxn]
      · rw [hoxv, hxv]
      · rw [hoyv, hyv, bandSlice_eq_filter _ _ _ hsat]

/-- Witness for C1's amended theorem at a concrete ice field. -/
theorem getACCESSdata_SO_ice_time_and_coords_witness :
    (areaT0.yt_ocean.Pairwise (· ≤ ·)
      ∧ getACCESSdata_SO iceRaw0 areaT0 (-90) (-45) true = some iceOut0)
    ∧ (iceOut0.time = iceRaw0.time.map (fun t => t - 12)
      ∧ iceOut0.yname = "yt_ocean" ∧ iceOut0.xname = "xt_ocean"
      ∧ iceOut0.xvals = areaT0.xt_ocean
      ∧ iceOut0.yvals = areaT0.yt_ocean.filter (fun y => decide (-90 ≤ y ∧ y ≤ -45))) :=
  ⟨⟨by decide, by decide⟩,
    getACCESSdata_SO_ice_time_and_coords iceRaw0 areaT0 (-90) (-45) iceOut0
      (by decide) (by decide)⟩

/-- C9: every field returned by `getACCESSdata_SO` has its y axis subset to
the closed band `[minlat, maxlat]` (the y coordinate vector of the result
equals the pre-subsetting vector filtered to the band); the subsetting axis
is `yu_ocean` when the variable is named `u` or `v` and `yt_ocean`
otherwise; and the source's default band is `[-90, -45]`
(`getACCESSdata_SO_defaults`). -/
theorem getACCESSdata_SO_lat_band_subset
    (va : OField) (area_t : AreaT) (minlat maxlat : ℚ) (ice_data : Bool) (out : OField)
    (hsva : va.yvals.Pairwise (· ≤ ·)) (hsat : area_t.yt_ocean.Pairwise (· ≤ ·))
    (h : getACCESSdata_SO va area_t minlat maxlat ice_data = some out) :
    out.yname = (if va.name = "u" ∨ va.name = "v" then "yu_ocean" else "yt_ocean")
    ∧ (∃ pre, (if ice_data then iceCorrect va area_t else some va) = some pre
        ∧ out.yvals = pre.yvals.filter (fun y => decide (minlat ≤ y ∧ y ≤ maxlat)))
    ∧ getACCESSdata_SO_defaults va area_t ice_data
        = getACCESSdata_SO va area_t (-90) (-45) ice_data := by
  unfold getACCESSdata_SO at h
  cases hpre : (if ice_data then iceCorrect va area_t else some va) with
  | none => rw [hpre] at h; cases h
  | some pre =>
    rw [hpre] at h
    simp only [Option.some_bind] at h
    have hname : pre.name = va.name := by
      cases ice_data with
      | false => simp only [if_neg Bool.false_ne_true] at hpre; cases hpre; rfl
      | true =>
        simp only [if_true] at hpre
        exact (iceCorrect_eq_some hpre).1
    have hsorted : pre.yvals.Pairwise (· ≤ ·) := by
      cases ice_data with
      | false => simp only [if_neg Bool.false_ne_true] at hpre; cases hpre; exact hsva
      | true =>
        simp only [if_true] at hpre
        rw [(iceCorrect_eq_some hpre).2.2.2.1]
        exact hsat
    rw [hname] at h
    by_cases huv : va.name = "u" ∨ va.name = "v"
    · rw [if_pos huv] at h
      obtain ⟨hax, hoyn, -, -, -, -, hoyv⟩ := selY_eq_some h
      refine ⟨?_, ⟨pre, rfl, ?_⟩, rfl⟩
      · rw [if_pos huv, hoyn, hax]
      · rw [hoyv, bandSlice_eq_filter _ _ _ hsorted]
    · rw [if_neg huv] at h
      obtain ⟨hax, hoyn, -, -, -, -, hoyv⟩ := selY_eq_some h
      refine ⟨?_, ⟨pre, rfl, ?_⟩, rfl⟩
      · rw [if_neg huv, hoyn, hax]
      · rw [hoyv, bandSlice_eq_filter _ _ _ hsorted]

def oceanRaw0 : OField :=
  ⟨"temp", [5], "yt_ocean", [-60, -50, -30], "xt_ocean", [0], [], [[[1], [2], [3]]]⟩

def oceanOut0 : OField :=
  ⟨"temp", [5], "yt_ocean", [-60, -50], "xt_ocean", [0], [], [[[1], [2]]]⟩

/-- Witness for C9 at a concrete ocean field with the default band. -/
theorem getACCESSdata_SO_lat_band_subset_witness :
    (oceanRaw0.yvals.Pairwise (· ≤ ·)
      ∧ ([] : List ℚ).Pairwise (· ≤ ·)
      ∧ getACCESSdata_SO oceanRaw0 ⟨[], []⟩ (-90) (-45) false = some oceanOut0)
    ∧ (oceanOut0.yname
        = (if oceanRaw0.name = "u" ∨ oceanRaw0.name = "v" then "yu_ocean" else "yt_ocean")
      ∧ (∃ pre, (if false then iceCorrect oceanRaw0 ⟨[], []⟩ else some oceanRaw0) = some pre
          ∧ oceanOut0.yvals = pre.yvals.filter (fun y => decide (-90 ≤ y ∧ y ≤ -45)))
      ∧ getACCESSdata_SO_defaults oceanRaw0 ⟨[], []⟩ false
          = getACCESSdata_SO oceanRaw0 ⟨[], []⟩ (-90) (-45) false) :=
  ⟨⟨by decide, by decide, by decide⟩,
    getACCESSdata_SO_lat_band_subset oceanRaw0 ⟨[], []⟩ (-90) (-45) false oceanOut0
      (by decide) (by decide) (by decide)⟩

/-!
## `corrlong` (UsefulFunctions.py lines 85-103)

A field is modelled by its x axis: the list of (x coordinate, data column)
pairs, in axis order; `sortby` reorders the pairs (stably, by the new x
values) and carries the data columns along.
-/

structure XField where
  name : String
  xname : String
  cols : List (ℚ × List ℚ)
deriving DecidableEq

/-- Ordering of (x coordinate, column) pairs by coordinate value, the order
used by `sortby` on the x axis. -/
def xle (c d : ℚ × List ℚ) : Prop := c.1 ≤ d.1

instance : DecidableRel xle := fun c d => inferInstanceAs (Decidable (c.1 ≤ d.1))

instance : IsTotal (ℚ × List ℚ) xle := ⟨fun a b => le_total a.1 b.1⟩

instance : IsTrans (ℚ × List ℚ) xle := ⟨fun _ _ _ => le_trans⟩

/-- `corrlong` (lines 85-103): remap the x coordinate vector through
`((x + 180) % 360) - 180` and re-sort the field by the new x values.  The
axis name is `xu_ocean` for a variable named `u` or `v`, `xt_ocean`
otherwise; `none` models the KeyError raised when the field does not carry
that axis. -/
def corrlong (a : XField) : Option XField :=
  if a.xname = (if a.name = "u" ∨ a.name = "v" then "xu_ocean" else "xt_ocean") then
    some ⟨a.name, a.xname,
      List.insertionSort xle (a.cols.map (fun c => (pymod (c.1 + 180) 360 - 180, c.2)))⟩
  else none

theorem pymod_range (a : ℚ) : 0 ≤ pymod a 360 ∧ pymod a 360 < 360 := by
  have h1 : ((⌊a / 360⌋ : ℤ) : ℚ) ≤ a / 360 := Int.floor_le _
  have h2 : a / 360 < (⌊a / 360⌋ : ℚ) + 1 := Int.lt_floor_add_one _
  have h3 : a = 360 * (a / 360) := by ring
  have h4 : 360 * ((⌊a / 360⌋ : ℤ) : ℚ) ≤ a := by nlinarith
  have h5 : a < 360 * ((⌊a / 360⌋ : ℤ) : ℚ) + 360 := by nlinarith
  unfold pymod
  constructor <;> linarith

theorem pymod_eq_self {a : ℚ} (h0 : 0 ≤ a) (h1 : a < 360) : pymod a 360 = a := by
  unfold pymod
  have hf : ⌊a / 360⌋ = 0 := by
    apply Int.floor_eq_zero_iff.mpr
    exact ⟨div_nonneg h0 (by norm_num), (div_lt_one (by norm_num)).mpr h1⟩
  rw [hf]
  simp

/-- C6: `corrlong` remaps the x coordinates through `((x+180) % 360) - 180`
into `[-180, 180)` and re-sorts ascending along x; and it is idempotent on
normalized fields: a field already in `[-180, 180)` and sorted ascending on
x is returned unchanged (same values and same order). -/
theorem corrlong_range_sorted_idempotent (a : XField)
    (hax : a.xname = (if a.name = "u" ∨ a.name = "v" then "xu_ocean" else "xt_ocean")) :
    (∃ out, corrlong a = some out
      ∧ (∀ c ∈ out.cols, -180 ≤ c.1 ∧ c.1 < 180)
      ∧ out.cols.Sorted xle)
    ∧ ((∀ c ∈ a.cols, -180 ≤ c.1 ∧ c.1 < 180) → a.cols.Sorted xle →
        corrlong a = some a) := by
  constructor
  · refine ⟨⟨a.name, a.xname,
      List.insertionSort xle (a.cols.map (fun c => (pymod (c.1 + 180) 360 - 180, c.2)))⟩,
      ?_, ?_, ?_⟩
    · unfold corrlong
      rw [if_pos hax]
    · intro c hc
      have hmem : c ∈ a.cols.map (fun c => (pymod (c.1 + 180) 360 - 180, c.2)) :=
        (List.perm_insertionSort xle _).subset hc
      obtain ⟨d, -, rfl⟩ := List.mem_map.mp hmem
      obtain ⟨hlo, hhi⟩ := pymod_range (d.1 + 180)
      dsimp only
      constructor <;> linarith
    · exact List.sorted_insertionSort xle _
  · intro hrange hsorted
    have hmap : a.cols.map (fun c => (pymod (c.1 + 180) 360 - 180, c.2)) = a.cols := by
      have hid : ∀ c ∈ a.cols, (pymod (c.1 + 180) 360 - 180, c.2) = c := by
        intro c hc
        obtain ⟨hlo, hhi⟩ := hrange c hc
        rw [pymod_eq_self (by linarith) (by linarith)]
        simp
      calc a.cols.map (fun c => (pymod (c.1 + 180) 360 - 180, c.2))
          = a.cols.map id := List.map_congr_left hid
        _ = a.cols := List.map_id a.cols
    unfold corrlong
    rw [if_pos hax, hmap, hsorted.insertionSort_eq]

def xf0 : XField := ⟨"temp", "xt_ocean", [(-170, [1]), (0, [2]), (150, [3])]⟩

/-- Witness for C6 at a concrete already-normalized field. -/
theorem corrlong_range_sorted_idempotent_witness :
    (xf0.xname = (if xf0.name = "u" ∨ xf0.name = "v" then "xu_ocean" else "xt_ocean"))
    ∧ ((∃ out, corrlong xf0 = some out
        ∧ (∀ c ∈ out.cols, -180 ≤ c.1 ∧ c.1 < 180)
        ∧ out.cols.Sorted xle)
      ∧ ((∀ c ∈ xf0.cols, -180 ≤ c.1 ∧ c.1 < 180) → xf0.cols.Sorted xle →
          corrlong xf0 = some xf0)) :=
  ⟨by decide, corrlong_range_sorted_idempotent xf0 (by decide)⟩

/-!
## `extract_bottom_layer` (UsefulFunctions.py lines 108-128)

A depth-resolved field over (time, st_ocean, yt_ocean, xt_ocean) is a shape
record together with an index function into `Option ℚ` (`none` = NaN); the
shape gives the extent of each axis, the function is only consulted inside
it.  The xarray reductions are modelled with their documented NaN
semantics: `cumsum`/`sum` skip NaN (an all-NaN reduction sums to 0), `max`
over an all-NaN slice is NaN, `==` with a NaN operand is false.  The final
`transpose` puts the axes in (time, y, x) order, which is the order of the
result's index function.
-/

structure DepthField where
  nt : ℕ
  nd : ℕ
  ny : ℕ
  nx : ℕ
  val : ℕ → ℕ → ℕ → ℕ → Option ℚ

structure BotField where
  nt : ℕ
  ny : ℕ
  nx : ℕ
  val : ℕ → ℕ → ℕ → Option ℚ

/-- Line 118: `xr.where(~np.isnan(da.isel(time = 0)), 1, np.nan)`. -/
def mask_a (da : DepthField) (d y x : ℕ) : Option ℚ :=
  if (da.val 0 d y x).isSome then some 1 else none

/-- Line 120: `mask_2d.cumsum('st_ocean').where(~np.isnan(da.isel(time = 0)))`;
`cumsum` skips NaN (treats it as 0), `.where` puts NaN back at the invalid
cells. -/
def mask_b (da : DepthField) (d y x : ℕ) : Option ℚ :=
  if (da.val 0 d y x).isSome then
    some (((List.range (d + 1)).map (fun i => (mask_a da i y x).getD 0)).sum)
  else none

/-- Skipping-NaN maximum of a list of float values, the semantics of
`DataArray.max` along an axis: NaN entries are ignored, an all-NaN slice
gives NaN. -/
def xmax : List (Option ℚ) → Option ℚ
  | [] => none
  | none :: rest => xmax rest
  | some v :: rest =>
    match xmax rest with
    | none => some v
    | some m => some (max v m)

/-- Line 122: `xr.where(mask_2d == mask_2d.max('st_ocean'), 1, np.nan)`;
a comparison with a NaN operand is false. -/
def mask_c (da : DepthField) (d y x : ℕ) : Option ℚ :=
  match mask_b da d y x, xmax ((List.range da.nd).map (fun i => mask_b da i y x)) with
  | some a, some b => if a = b then some 1 else none
  | some _, none => none
  | none, _ => none

/-- Lines 124-126: `(mask_2d*da).sum('st_ocean')` transposed to
(time, y, x); multiplication propagates NaN, the sum skips NaN (an all-NaN
column sums to 0, a value, not NaN). -/
def extract_bottom_layer (da : DepthField) : BotField :=
  ⟨da.nt, da.ny, da.nx, fun t y x =>
    some (((List.range da.nd).map (fun d =>
      ((mask_c da d y x).bind (fun m => (da.val t d y x).map (fun v => m * v))).getD 0)).sum)⟩

theorem list_range_map_sum (f : ℕ → ℚ) (n : ℕ) :
    ((List.range n).map f).sum = ∑ i ∈ Finset.range n, f i := by
  induction n with
  | zero => simp
  | succ n ih =>
    rw [List.range_succ, List.map_append, List.sum_append, Finset.sum_range_succ, ih]
    simp

theorem xmax_le {l : List (Option ℚ)} {v : ℚ} (h : some v ∈ l) :
    ∃ m, xmax l = some m ∧ v ≤ m := by
  induction l with
  | nil => cases h
  | cons o rest ih =>
    cases o with
    | none =>
      rcases List.mem_cons.mp h with h1 | h2
      · cases h1
      · obtain ⟨m, hm, hvm⟩ := ih h2
        exact ⟨m, by simpa [xmax] using hm, hvm⟩
    | some w =>
      rcases List.mem_cons.mp h with h1 | h2
      · cases h1
        cases hx : xmax rest with
        | none => exact ⟨v, by simp [xmax, hx], le_refl v⟩
        | some m => exact ⟨max v m, by simp [xmax, hx], le_max_left v m⟩
      · obtain ⟨m, hm, hvm⟩ := ih h2
        exact ⟨max w m, by simp [xmax, hm], le_trans hvm (le_max_right w m)⟩

theorem xmax_mem : ∀ {l : List (Option ℚ)} {m : ℚ}, xmax l = some m → some m ∈ l := by
  intro l
  induction l with
  | nil => intro m h; cases h
  | cons o rest ih =>
    intro m h
    cases o with
    | none =>
      have h2 : xmax rest = some m := h
      exact List.mem_cons_of_mem _ (ih h2)
    | some w =>
      cases hx : xmax rest with
      | none =>
        have : w = m := by simpa [xmax, hx] using h
        cases this
        exact List.mem_cons_self _ _
      | some mm =>
        have hmax : max w mm = m := by simpa [xmax, hx] using h
        rcases max_choice w mm with hc | hc
        · rw [hc] at hmax
          cases hmax
          exact List.mem_cons_self _ _
        · rw [hc] at hmax
          cases hmax
          exact List.mem_cons_of_mem _ (ih hx)

/-- C2 evaluation at the failing input: a field with a single horizontal
cell, two depth levels, one time step and no valid value anywhere.  The
bottom-layer output at that cell is the (non-missing) number 0 — xarray's
skip-NaN `sum` turns the all-NaN column into 0 — not a missing value as the
claim states. -/
theorem extract_bottom_layer_all_missing_zero :
    (extract_bottom_layer ⟨1, 2, 1, 1, fun _ _ _ _ => none⟩).val 0 0 0 = some 0
    ∧ (extract_bottom_layer ⟨1, 2, 1, 1, fun _ _ _ _ => none⟩).val 0 0 0 ≠ none := by
  have h : (extract_bottom_layer ⟨1, 2, 1, 1, fun _ _ _ _ => none⟩).val 0 0 0 = some 0 := by
    simp [extract_bottom_layer, mask_c, mask_b, mask_a, xmax, List.range_succ]
  exact ⟨h, by rw [h]; simp⟩

/-- C5: on a field whose NaN pattern does not change over time, the
bottom-layer value at a cell with at least one valid depth level is exactly
the input value at the deepest valid level `D`, and the output keeps the
(time, y, x) extents of the input in that axis order. -/
theorem extract_bottom_layer_deepest_valid
    (da : DepthField) (t y x D : ℕ)
    (ht : t < da.nt) (hy : y < da.ny) (hx : x < da.nx)
    (hconst : ∀ t', t' < da.nt → ∀ d, d < da.nd →
      (da.val t' d y x).isSome = (da.val 0 d y x).isSome)
    (hD : D < da.nd)
    (hDvalid : (da.val 0 D y x).isSome = true)
    (hdeep : ∀ d, d < da.nd → D < d → da.val 0 d y x = none) :
    (extract_bottom_layer da).val t y x = da.val t D y x
    ∧ (extract_bottom_layer da).nt = da.nt
    ∧ (extract_bottom_layer da).ny = da.ny
    ∧ (extract_bottom_layer da).nx = da.nx := by
  -- the indicator column and its partial counts
  set χ : ℕ → ℚ := fun i => (mask_a da i y x).getD 0 with hχ
  have hχ01 : ∀ i, χ i = if (da.val 0 i y x).isSome then 1 else 0 := by
    intro i
    by_cases hv : (da.val 0 i y x).isSome
    · simp [hχ, mask_a, hv]
    · simp [hχ, mask_a, hv]
  have hχnn : ∀ i, 0 ≤ χ i := by
    intro i
    rw [hχ01 i]
    split <;> norm_num
  set cnt : ℕ → ℚ := fun d => ∑ i ∈ Finset.range (d + 1), χ i with hcnt
  have hmaskb : ∀ d, mask_b da d y x
      = if (da.val 0 d y x).isSome then some (cnt d) else none := by
    intro d
    rw [mask_b, list_range_map_sum]
  -- counts grow weakly with depth, strictly up to a valid level
  have hmono : ∀ d d' : ℕ, d ≤ d' → cnt d ≤ cnt d' := by
    intro d d' hdd
    apply Finset.sum_le_sum_of_subset_of_nonneg
    · exact Finset.range_subset.mpr (Nat.succ_le_succ hdd)
    · intro i _ _
      exact hχnn i
  have hstrict : ∀ d : ℕ, d < D → cnt d < cnt D := by
    intro d hdD
    apply Finset.sum_lt_sum_of_subset
      (Finset.range_subset.mpr (Nat.succ_le_succ (le_of_lt hdD)))
      (Finset.mem_range.mpr (Nat.lt_succ_self D))
      (by simp [Nat.lt_succ_iff, not_le.mpr hdD])
    · rw [hχ01 D, if_pos hDvalid]
      norm_num
    · intro j _ _
      exact hχnn j
  -- every valid level is at most D
  have hvalid_le : ∀ d, d < da.nd → (da.val 0 d y x).isSome → d ≤ D := by
    intro d hd hv
    by_contra hcon
    push_neg at hcon
    rw [hdeep d hd hcon] at hv
    cases hv
  -- the depth-axis maximum of the running count is cnt D
  have hM : xmax ((List.range da.nd).map (fun i => mask_b da i y x)) = some (cnt D) := by
    have hmem : some (cnt D) ∈ (List.range da.nd).map (fun i => mask_b da i y x) := by
      apply List.mem_map.mpr
      exact ⟨D, List.mem_range.mpr hD, by rw [hmaskb D, if_pos hDvalid]⟩
    obtain ⟨m, hm, hlem⟩ := xmax_le hmem
    obtain ⟨i, hi, hmi⟩ := List.mem_map.mp (xmax_mem hm)
    have hi' : i < da.nd := List.mem_range.mp hi
    rw [hmaskb i] at hmi
    by_cases hvi : (da.val 0 i y x).isSome
    · rw [if_pos hvi] at hmi
      have : cnt i = m := by injection hmi
      have hile : i ≤ D := hvalid_le i hi' hvi
      have : m ≤ cnt D := this ▸ hmono i D hile
      rw [hm, le_antisymm this hlem]
    · rw [if_neg hvi] at hmi
      cases hmi
  -- the single-layer mask selects exactly level D
  have hmc_D : mask_c da D y x = some 1 := by
    rw [mask_c, hmaskb D, if_pos hDvalid, hM]
    simp
  -- the masked, summed column reduces to the value at level D
  obtain ⟨v, hv⟩ : ∃ v, da.val t D y x = some v := by
    have := hconst t ht D hD
    rw [hDvalid] at this
    exact Option.isSome_iff_exists.mp this
  have hterm : ∀ d, d < da.nd → d ≠ D →
      ((mask_c da d y x).bind (fun m => (da.val t d y x).map (fun w => m * w))).getD 0 = 0 := by
    intro d hd hdD
    have hnone : mask_c da d y x = none := by
      rw [mask_c, hmaskb d]
      by_cases hvd : (da.val 0 d y x).isSome
      · rw [if_pos hvd, hM]
        have hdle : d ≤ D := hvalid_le d hd hvd
        have hlt : d < D := lt_of_le_of_ne hdle hdD
        have : cnt d ≠ cnt D := ne_of_lt (hstrict d hlt)
        simp [this]
      · rw [if_neg hvd]
    rw [hnone]
    rfl
  have hsum : (extract_bottom_layer da).val t y x = some (1 * v) := by
    show some _ = some (1 * v)
    congr 1
    rw [list_range_map_sum]
    rw [Finset.sum_eq_single_of_mem D (Finset.mem_range.mpr hD)]
    · rw [hmc_D, hv]
      rfl
    · intro b hb hbD
      exact hterm b (Finset.mem_range.mp hb) hbD
  refine ⟨?_, rfl, rfl, rfl⟩
  rw [hsum, hv, one_mul]

def depth0 : DepthField :=
  ⟨1, 4, 1, 1, fun _ d _ _ => [some 10, some 20, some 15, none].getD d none⟩

/-- Witness for C5: valid values at depths 0,1,2 and missing below give the
value at depth 2. -/
theorem extract_bottom_layer_deepest_valid_witness :
    (0 < depth0.nt ∧ 0 < depth0.ny ∧ 0 < depth0.nx
      ∧ (∀ t', t' < depth0.nt → ∀ d, d < depth0.nd →
          (depth0.val t' d 0 0).isSome = (depth0.val 0 d 0 0).isSome)
      ∧ 2 < depth0.nd
      ∧ (depth0.val 0 2 0 0).isSome = true
      ∧ (∀ d, d < depth0.nd → 2 < d → depth0.val 0 d 0 0 = none))
    ∧ ((extract_bottom_layer depth0).val 0 0 0 = depth0.val 0 2 0 0
      ∧ (extract_bottom_layer depth0).nt = depth0.nt
      ∧ (extract_bottom_layer depth0).ny = depth0.ny
      ∧ (extract_bottom_layer depth0).nx = depth0.nx) :=
  ⟨⟨by decide, by decide, by decide, by decide, by decide, by decide, by decide⟩,
    extract_bottom_layer_deepest_valid depth0 0 0 0 2 (by decide) (by decide) (by decide)
      (by decide) (by decide) (by decide) (by decide)⟩

/-!
## `nn_dist` (UsefulFunctions.py lines 133-179)

The reference field `target_da` is a single-time-step 2-D array (NaN as
`none`) with a scalar time stamp carrying a year and a month; the query
grid is a plain list of coordinate pairs.  `np.argmax`/`DataArray.argmax`
with NaN skipping is `nanargmax` below; sklearn's `BallTree` with the
haversine metric is modelled by the metric itself, passed as the explicit
parameter `d`: a 1-nearest-neighbour query returns the minimum of `d` over
the indexed points (the unused index output `ind` is dropped).  The file
system effects (lines 164-179) are returned in a `FileEffects` record; the
bare string expression on line 177 in the stem-less branch is a no-op
statement, so that branch records no warning.
-/

structure TStamp where
  year : ℤ
  month : ℕ
deriving DecidableEq

structure RefField where
  time : TStamp
  yt_ocean : List ℚ
  xt_ocean : List ℚ
  data : List (List (Option ℚ))
deriving DecidableEq

/-- The x column of the reference field at index `k` (entries along y). -/
def colAt (da : RefField) (k : ℕ) : List (Option ℚ) :=
  da.data.map (fun row => row.getD k none)

/-- `np.nanargmax` along a column: index and value of the maximum over the
non-NaN entries, ties broken by the first (smallest-index) occurrence;
`none` when the column has no valid entry (numpy raises). -/
def nanargmax_pair : List (Option ℚ) → Option (ℕ × ℚ)
  | [] => none
  | none :: rest => (nanargmax_pair rest).map (fun p => (p.1 + 1, p.2))
  | some v :: rest =>
    match nanargmax_pair rest with
    | none => some (0, v)
    | some (j, m) => if v < m then some (j + 1, m) else some (0, v)

def nanargmax (col : List (Option ℚ)) : Option ℕ :=
  (nanargmax_pair col).map Prod.fst

/-- Lines 146-147: one reference point per x column, pairing the y
coordinate of the column's maximum with the column's x coordinate. -/
def ice_coords (da : RefField) : Option (List (ℚ × ℚ)) :=
  mapOpt (fun k =>
      (nanargmax (colAt da k)).bind (fun j =>
        da.yt_ocean[j]?.map (fun yy => (yy, da.xt_ocean.getD k 0))))
    (List.range da.xt_ocean.length)

/-- `np.deg2rad` on a coordinate pair. -/
noncomputable def deg2rad (p : ℚ × ℚ) : ℝ × ℝ :=
  ((p.1 : ℝ) * Real.pi / 180, (p.2 : ℝ) * Real.pi / 180)

/-- Minimum of a non-empty list of distances (the single-nearest-neighbour
query result); on `[]` it returns the junk value 0, never used because the
tree is only built over a non-empty point set. -/
noncomputable def rminList (l : List ℝ) : ℝ := l.foldl min (l.headD 0)

structure DistField where
  dims : List String
  time : List TStamp
  yt_ocean : List ℚ
  xt_ocean : List ℚ
  data : List (List ℝ)
  units : String
  long_name : String

structure FileEffects where
  madeDir : Option String
  wrote : Option String
  warned : List String
deriving DecidableEq

/-- `str(month).zfill(2)`. -/
def zfill2 (n : ℕ) : String := if n < 10 then "0" ++ toString n else toString n

/-- File-system effects of lines 164-178: with a folder the directory is
created; with folder and stem the field is written to
`{folder}/{stem}_{year}-{month:02d}.nc`; with a folder but no stem the
source merely evaluates a bare string literal (line 177), a no-op, so
nothing is written and no warning is recorded. -/
def persistEffects (folder_out file_base : Option String) (t : TStamp) : FileEffects :=
  match folder_out, file_base with
  | none, _ => ⟨none, none, []⟩
  | some fo, some fb =>
    ⟨some fo,
      some (fo ++ "/" ++ fb ++ "_" ++ toString t.year ++ "-" ++ zfill2 t.month ++ ".nc"),
      []⟩
  | some fo, none => ⟨some fo, none, []⟩

/-- `nn_dist` (lines 133-179).  `d` is sklearn's haversine metric (external
library); the tree is built over `deg2rad` of the extracted reference
points, the query points `grid_coords` are used as given.  `none` models
the exceptions: `argmax` on an all-NaN column, a `BallTree` over an empty
point set, or a reshape of the query results to a mismatched
`target_da.shape`. -/
noncomputable def nn_dist (d : ℝ × ℝ → ℝ × ℝ → ℝ) (target_da : RefField)
    (grid_coords : List (ℚ × ℚ)) (folder_out file_base : Option String) :
    Option (DistField × FileEffects) :=
  (ice_coords target_da).bind (fun coords =>
    if coords = [] then none
    else
      if grid_coords.length = target_da.yt_ocean.length * target_da.xt_ocean.length then
        some
          (⟨["time", "yt_ocean", "xt_ocean"], [target_da.time],
            target_da.yt_ocean, target_da.xt_ocean,
            (List.range target_da.yt_ocean.length).map (fun j =>
              (List.range target_da.xt_ocean.length).map (fun k =>
                6371 * (grid_coords.map (fun q =>
                    rminList ((coords.map deg2rad).map
                      (fun r => d r ((q.1 : ℝ), (q.2 : ℝ)))))).getD
                  (j * target_da.xt_ocean.length + k) 0)),
            "km", "distance to nearest neighbour"⟩,
          persistEffects folder_out file_base target_da.time)
      else none)

theorem nanargmax_pair_eq_none {l : List (Option ℚ)}
    (h : nanargmax_pair l = none) : ∀ o ∈ l, o = none := by
  induction l with
  | nil => intro o ho; cases ho
  | cons a rest ih =>
    intro o ho
    cases a with
    | none =>
      rcases List.mem_cons.mp ho with rfl | ho2
      · rfl
      · have h2 : nanargmax_pair rest = none := by
          by_contra hne
          obtain ⟨p, hp⟩ := Option.ne_none_iff_exists'.mp hne
          rw [nanargmax_pair, hp] at h
          cases h
        exact ih h2 o ho2
    | some v =>
      exfalso
      rw [nanargmax_pair] at h
      cases hx : nanargmax_pair rest with
      | none => rw [hx] at h; cases h
      | some p =>
        rw [hx] at h
        rcases p with ⟨j, m⟩
        have h2 : (if v < m then some (j + 1, m) else some (0, v))
            = (none : Option (ℕ × ℚ)) := h
        by_cases hvm : v < m
        · rw [if_pos hvm] at h2; cases h2
        · rw [if_neg hvm] at h2; cases h2

theorem nanargmax_pair_isSome {l : List (Option ℚ)} {v : ℚ}
    (h : some v ∈ l) : (nanargmax_pair l).isSome := by
  cases hx : nanargmax_pair l with
  | none =>
    have := nanargmax_pair_eq_none hx (some v) h
    cases this
  | some p => rfl

theorem nanargmax_pair_spec :
    ∀ {l : List (Option ℚ)} {j : ℕ} {m : ℚ}, nanargmax_pair l = some (j, m) →
      l[j]? = some (some m)
      ∧ (∀ (i : ℕ) (v : ℚ), l[i]? = some (some v) → v ≤ m)
      ∧ (∀ (i : ℕ) (v : ℚ), i < j → l[i]? = some (some v) → v < m) := by
  intro l
  induction l with
  | nil => intro j m h; cases h
  | cons a rest ih =>
    intro j m h
    cases a with
    | none =>
      rw [nanargmax_pair] at h
      cases hx : nanargmax_pair rest with
      | none => rw [hx] at h; cases h
      | some p =>
        rw [hx] at h
        rcases p with ⟨j1, m1⟩
        have h2 : (some ((j1 + 1, m1) : ℕ × ℚ)) = some (j, m) := h
        have h3 : ((j1 + 1, m1) : ℕ × ℚ) = (j, m) := Option.some_injective _ h2
        have hj : j1 + 1 = j := congrArg Prod.fst h3
        have hm : m1 = m := congrArg Prod.snd h3
        subst hj
        subst hm
        obtain ⟨hget, hmax, hfirst⟩ := ih hx
        refine ⟨by simpa using hget, ?_, ?_⟩
        · intro i v hi
          cases i with
          | zero => simp at hi
          | succ i1 =>
            rw [List.getElem?_cons_succ] at hi
            exact hmax i1 v hi
        · intro i v hij hi
          cases i with
          | zero => simp at hi
          | succ i1 =>
            rw [List.getElem?_cons_succ] at hi
            exact hfirst i1 v (Nat.lt_of_succ_lt_succ hij) hi
    | some w =>
      rw [nanargmax_pair] at h
      cases hx : nanargmax_pair rest with
      | none =>
        rw [hx] at h
        have h2 : (some (((0 : ℕ), w) : ℕ × ℚ)) = some (j, m) := h
        have h3 : (((0 : ℕ), w) : ℕ × ℚ) = (j, m) := Option.some_injective _ h2
        have hj : (0 : ℕ) = j := congrArg Prod.fst h3
        have hm : w = m := congrArg Prod.snd h3
        subst hj
        subst hm
        refine ⟨by simp, ?_, ?_⟩
        · intro i v hi
          cases i with
          | zero =>
            rw [List.getElem?_cons_zero] at hi
            have hv : some w = some v := Option.some_injective _ hi
            cases hv
            exact le_refl w
          | succ i1 =>
            rw [List.getElem?_cons_succ] at hi
            exfalso
            have h1 : i1 < rest.length := by
              by_contra hge
              rw [List.getElem?_eq_none (by omega)] at hi
              cases hi
            rw [List.getElem?_eq_getElem h1] at hi
            have hv := Option.some_injective _ hi
            have hmem : some v ∈ rest := hv ▸ List.getElem_mem h1
            have := nanargmax_pair_eq_none hx (some v) hmem
            cases this
        · intro i v hij _
          cases Nat.not_lt_zero i hij
      | some p =>
        rw [hx] at h
        rcases p with ⟨j1, m1⟩
        have h2 : (if w < m1 then some (j1 + 1, m1) else some ((0 : ℕ), w))
            = some (j, m) := h
        obtain ⟨hget, hmax, hfirst⟩ := ih hx
        by_cases hwm : w < m1
        · rw [if_pos hwm] at h2
          have h3 : ((j1 + 1, m1) : ℕ × ℚ) = (j, m) := Option.some_injective _ h2
          have hj : j1 + 1 = j := congrArg Prod.fst h3
          have hm : m1 = m := congrArg Prod.snd h3
          subst hj
          subst hm
          refine ⟨by simpa using hget, ?_, ?_⟩
          · intro i v hi
            cases i with
            | zero =>
              rw [List.getElem?_cons_zero] at hi
              have hv : some w = some v := Option.some_injective _ hi
              cases hv
              exact le_of_lt hwm
            | succ i1 =>
              rw [List.getElem?_cons_succ] at hi
              exact hmax i1 v hi
          · intro i v hij hi
            cases i with
            | zero =>
              rw [List.getElem?_cons_zero] at hi
              have hv : some w = some v := Option.some_injective _ hi
              cases hv
              exact hwm
            | succ i1 =>
              rw [List.getElem?_cons_succ] at hi
              exact hfirst i1 v (Nat.lt_of_succ_lt_succ hij) hi
        · rw [if_neg hwm] at h2
          have h3 : (((0 : ℕ), w) : ℕ × ℚ) = (j, m) := Option.some_injective _ h2
          have hj : (0 : ℕ) = j := congrArg Prod.fst h3
          have hm : w = m := congrArg Prod.snd h3
          subst hj
          subst hm
          push_neg at hwm
          refine ⟨by simp, ?_, ?_⟩
          · intro i v hi
            cases i with
            | zero =>
              rw [List.getElem?_cons_zero] at hi
              have hv : some w = some v := Option.some_injective _ hi
              cases hv
              exact le_refl w
            | succ i1 =>
              rw [List.getElem?_cons_succ] at hi
              exact le_trans (hmax i1 v hi) hwm
          · intro i v hij _
            cases Nat.not_lt_zero i hij

theorem mapOpt_some {α β : Type} (f : α → Option β) :
    ∀ l : List α, (∀ a ∈ l, (f a).isSome) →
      ∃ r, mapOpt f l = some r ∧ r.length = l.length := by
  intro l
  induction l with
  | nil => intro _; exact ⟨[], rfl, rfl⟩
  | cons a rest ih =>
    intro h
    obtain ⟨b, hb⟩ := Option.isSome_iff_exists.mp (h a (List.mem_cons_self a rest))
    obtain ⟨r, hr, hlen⟩ := ih (fun a1 ha1 => h a1 (List.mem_cons_of_mem a ha1))
    exact ⟨b :: r, by simp [mapOpt, hb, hr], by simp [hlen]⟩

theorem mapOpt_getElem {α β : Type} (f : α → Option β) :
    ∀ (l : List α) (r : List β), mapOpt f l = some r →
      ∀ (i : ℕ), i < l.length → ∃ a, l[i]? = some a ∧ f a = r[i]? := by
  intro l
  induction l with
  | nil => intro r _ i hi; cases Nat.not_lt_zero i hi
  | cons a rest ih =>
    intro r h i hi
    rw [mapOpt] at h
    cases hfa : f a with
    | none => rw [hfa] at h; cases h
    | some b =>
      rw [hfa] at h
      simp only [Option.some_bind] at h
      cases hrest : mapOpt f rest with
      | none => rw [hrest] at h; cases h
      | some r1 =>
        rw [hrest] at h
        simp only [Option.map_some'] at h
        have hr : r = b :: r1 := (Option.some_injective _ h).symm
        subst hr
        cases i with
        | zero =>
          exact ⟨a, List.getElem?_cons_zero, by rw [hfa, List.getElem?_cons_zero]⟩
        | succ i1 =>
          obtain ⟨a1, ha1, hfa1⟩ := ih r1 hrest i1 (by simpa using hi)
          exact ⟨a1, by simpa using ha1, by simpa using hfa1⟩

theorem getD_map_of_lt {α β : Type} (f : α → β) (l : List α) {i : ℕ}
    (h : i < l.length) (d1 : β) (d2 : α) :
    (l.map f).getD i d1 = f (l.getD i d2) := by
  rw [List.getD_eq_getElem?_getD, List.getElem?_map, List.getElem?_eq_getElem h,
    List.getD_eq_getElem?_getD, List.getElem?_eq_getElem h]
  rfl

theorem getD_range_map {β : Type} {f : ℕ → β} {n i : ℕ} (h : i < n) (d1 : β) :
    ((List.range n).map f).getD i d1 = f i := by
  rw [List.getD_eq_getElem?_getD, List.getElem?_map, List.getElem?_range h]
  rfl

theorem colAt_length (da : RefField) (k : ℕ) : (colAt da k).length = da.data.length :=
  List.length_map _ _

/-- C3: for every x column of the reference field with at least one valid
entry (and all columns valid so that the extraction succeeds), the
extracted reference point at that column pairs the column's x coordinate
with the y coordinate at the index of the column's maximum valid value,
and that index is the smallest index attaining the maximum. -/
theorem ice_coords_column_max
    (da : RefField) (k : ℕ)
    (hdata : da.data.length = da.yt_ocean.length)
    (hcols : ∀ k1, k1 < da.xt_ocean.length →
      (colAt da k1).any (fun o => o.isSome) = true)
    (hk : k < da.xt_ocean.length) :
    ∃ cs j m, ice_coords da = some cs
      ∧ nanargmax (colAt da k) = some j
      ∧ cs[k]? = some (da.yt_ocean.getD j 0, da.xt_ocean.getD k 0)
      ∧ (colAt da k)[j]? = some (some m)
      ∧ (∀ (i : ℕ) (v : ℚ), (colAt da k)[i]? = some (some v) → v ≤ m)
      ∧ (∀ (i : ℕ) (v : ℚ), i < j → (colAt da k)[i]? = some (some v) → v < m) := by
  -- on each column the nan-skipping argmax succeeds and lands inside the y axis
  have hstep : ∀ k1, k1 < da.xt_ocean.length →
      ∃ j1 m1, nanargmax_pair (colAt da k1) = some (j1, m1) ∧ j1 < da.yt_ocean.length := by
    intro k1 hk1
    obtain ⟨o, ho, hos⟩ := List.any_eq_true.mp (hcols k1 hk1)
    obtain ⟨v, hv⟩ := Option.isSome_iff_exists.mp hos
    subst hv
    have hsome := nanargmax_pair_isSome (l := colAt da k1) ho
    obtain ⟨p, hp⟩ := Option.isSome_iff_exists.mp hsome
    rcases p with ⟨j1, m1⟩
    obtain ⟨hget, -, -⟩ := nanargmax_pair_spec hp
    have hlt : j1 < (colAt da k1).length := by
      by_contra hge
      rw [List.getElem?_eq_none (by omega)] at hget
      cases hget
    rw [colAt_length, hdata] at hlt
    exact ⟨j1, m1, hp, hlt⟩
  -- hence every entry of the traversal is defined
  have hf : ∀ k1 ∈ List.range da.xt_ocean.length,
      ((nanargmax (colAt da k1)).bind (fun j1 =>
        da.yt_ocean[j1]?.map (fun yy => (yy, da.xt_ocean.getD k1 0)))).isSome := by
    intro k1 hk1
    obtain ⟨j1, m1, hp, hjlt⟩ := hstep k1 (List.mem_range.mp hk1)
    rw [nanargmax, hp]
    show (da.yt_ocean[j1]?.map (fun yy => (yy, da.xt_ocean.getD k1 0))).isSome = true
    rw [List.getElem?_eq_getElem hjlt]
    rfl
  obtain ⟨cs, hcs, hcslen⟩ := mapOpt_some _ _ hf
  obtain ⟨j, m, hp, hjlt⟩ := hstep k hk
  obtain ⟨hget, hmax, hfirst⟩ := nanargmax_pair_spec hp
  refine ⟨cs, j, m, by rw [ice_coords]; exact hcs, by rw [nanargmax, hp]; rfl, ?_,
    hget, hmax, hfirst⟩
  obtain ⟨a, ha, hfa⟩ := mapOpt_getElem _ _ cs hcs k (by simpa using hk)
  rw [List.getElem?_range hk] at ha
  have hak : a = k := Option.some_injective _ ha.symm
  rw [hak] at hfa
  rw [← hfa, nanargmax, hp]
  show da.yt_ocean[j]?.map (fun yy => (yy, da.xt_ocean.getD k 0))
      = some (da.yt_ocean.getD j 0, da.xt_ocean.getD k 0)
  simp [List.getD_eq_getElem?_getD, List.getElem?_eq_getElem hjlt]

def ref0 : RefField := ⟨⟨2000, 1⟩, [0, 1, 2], [5], [[some 3], [some 7], [some 7]]⟩

/-- Witness for C3 on a column with a tie: the maximum 7 occurs at y
indices 1 and 2 and the extracted point takes index 1 (y coordinate 1). -/
theorem ice_coords_column_max_witness :
    (ref0.data.length = ref0.yt_ocean.length
      ∧ (∀ k1, k1 < ref0.xt_ocean.length →
          (colAt ref0 k1).any (fun o => o.isSome) = true)
      ∧ 0 < ref0.xt_ocean.length)
    ∧ (∃ cs j m, ice_coords ref0 = some cs
        ∧ nanargmax (colAt ref0 0) = some j
        ∧ cs[0]? = some (ref0.yt_ocean.getD j 0, ref0.xt_ocean.getD 0 0)
        ∧ (colAt ref0 0)[j]? = some (some m)
        ∧ (∀ (i : ℕ) (v : ℚ), (colAt ref0 0)[i]? = some (some v) → v ≤ m)
        ∧ (∀ (i : ℕ) (v : ℚ), i < j → (colAt ref0 0)[i]? = some (some v) → v < m)) :=
  ⟨⟨by decide, by decide, by decide⟩,
    ice_coords_column_max ref0 0 (by decide) (by decide) (by decide)⟩

theorem ice_coords_some (da : RefField)
    (hdata : da.data.length = da.yt_ocean.length)
    (hcols : ∀ k1, k1 < da.xt_ocean.length →
      (colAt da k1).any (fun o => o.isSome) = true) :
    ∃ cs, ice_coords da = some cs ∧ cs.length = da.xt_ocean.length := by
  have hf : ∀ k1 ∈ List.range da.xt_ocean.length,
      ((nanargmax (colAt da k1)).bind (fun j1 =>
        da.yt_ocean[j1]?.map (fun yy => (yy, da.xt_ocean.getD k1 0)))).isSome := by
    intro k1 hk1
    obtain ⟨o, ho, hos⟩ := List.any_eq_true.mp (hcols k1 (List.mem_range.mp hk1))
    obtain ⟨v, hv⟩ := Option.isSome_iff_exists.mp hos
    subst hv
    have hsome := nanargmax_pair_isSome (l := colAt da k1) ho
    obtain ⟨p, hp⟩ := Option.isSome_iff_exists.mp hsome
    rcases p with ⟨j1, m1⟩
    obtain ⟨hget, -, -⟩ := nanargmax_pair_spec hp
    have hlt : j1 < (colAt da k1).length := by
      by_contra hge
      rw [List.getElem?_eq_none (by omega)] at hget
      cases hget
    rw [colAt_length, hdata] at hlt
    rw [nanargmax, hp]
    show (da.yt_ocean[j1]?.map (fun yy => (yy, da.xt_ocean.getD k1 0))).isSome = true
    rw [List.getElem?_eq_getElem hlt]
    rfl
  obtain ⟨cs, hcs, hlen⟩ := mapOpt_some _ _ hf
  exact ⟨cs, by rw [ice_coords]; exact hcs, by simpa using hlen⟩

/-- C4: for every invocation of `nn_dist` that succeeds to extract
reference points (all columns have a valid entry, the reference grid is
non-empty, and the query grid matches the reference field's shape), the
returned field has dims (time, yt_ocean, xt_ocean) with a single time value
taken from the reference field, carries attributes `units = "km"` and
`long_name = "distance to nearest neighbour"`, has the reference grid's
(y, x) shape, and each cell holds the angular distance from the
corresponding query point to its single nearest reference point (minimum
of the metric `d` over the radian-converted reference points) multiplied
by the Earth radius 6371 km. -/
theorem nn_dist_output_shape_attrs
    (d : ℝ × ℝ → ℝ × ℝ → ℝ) (da : RefField) (grid : List (ℚ × ℚ)) (fo fb : Option String)
    (hdata : da.data.length = da.yt_ocean.length)
    (hcols : ∀ k1, k1 < da.xt_ocean.length →
      (colAt da k1).any (fun o => o.isSome) = true)
    (hnx : da.xt_ocean.length ≠ 0)
    (hgrid : grid.length = da.yt_ocean.length * da.xt_ocean.length) :
    ∃ p cs, nn_dist d da grid fo fb = some p
      ∧ ice_coords da = some cs
      ∧ p.1.dims = ["time", "yt_ocean", "xt_ocean"]
      ∧ p.1.time = [da.time]
      ∧ p.1.yt_ocean = da.yt_ocean ∧ p.1.xt_ocean = da.xt_ocean
      ∧ p.1.units = "km" ∧ p.1.long_name = "distance to nearest neighbour"
      ∧ p.1.data.length = da.yt_ocean.length
      ∧ (∀ row ∈ p.1.data, row.length = da.xt_ocean.length)
      ∧ (∀ j k, j < da.yt_ocean.length → k < da.xt_ocean.length →
          (p.1.data.getD j []).getD k 0
            = 6371 * rminList ((cs.map deg2rad).map (fun r =>
                d r (((grid.getD (j * da.xt_ocean.length + k) (0, 0)).1 : ℝ),
                     ((grid.getD (j * da.xt_ocean.length + k) (0, 0)).2 : ℝ))))) := by
  obtain ⟨cs, hcs, hcslen⟩ := ice_coords_some da hdata hcols
  have hcsne : ¬cs = [] := by
    intro hnil
    rw [hnil] at hcslen
    exact hnx hcslen.symm
  refine ⟨(⟨["time", "yt_ocean", "xt_ocean"], [da.time], da.yt_ocean, da.xt_ocean,
      (List.range da.yt_ocean.length).map (fun j =>
        (List.range da.xt_ocean.length).map (fun k =>
          6371 * (grid.map (fun q => rminList ((cs.map deg2rad).map
              (fun r => d r ((q.1 : ℝ), (q.2 : ℝ)))))).getD
            (j * da.xt_ocean.length + k) 0)),
      "km", "distance to nearest neighbour"⟩,
    persistEffects fo fb da.time), cs, ?_, hcs, rfl, rfl, rfl, rfl, rfl, rfl, ?_, ?_, ?_⟩
  · rw [nn_dist, hcs]
    simp only [Option.some_bind]
    rw [if_neg hcsne, if_pos hgrid]
  · simp
  · intro row hrow
    obtain ⟨j, -, rfl⟩ := List.mem_map.mp hrow
    simp
  · intro j k hj hk
    have hidx : j * da.xt_ocean.length + k < grid.length := by
      have h1 : j * da.xt_ocean.length + k < j * da.xt_ocean.length + da.xt_ocean.length :=
        Nat.add_lt_add_left hk _
      have h2 : j * da.xt_ocean.length + da.xt_ocean.length
          = (j + 1) * da.xt_ocean.length := by ring
      have h3 : (j + 1) * da.xt_ocean.length
          ≤ da.yt_ocean.length * da.xt_ocean.length :=
        Nat.mul_le_mul_right _ hj
      rw [hgrid]
      omega
    dsimp only
    rw [getD_range_map hj, getD_range_map hk, getD_map_of_lt _ _ hidx _ ((0 : ℚ), (0 : ℚ))]

def ref1 : RefField := ⟨⟨2000, 3⟩, [1], [2], [[some 5]]⟩

/-- Witness for C4 at a concrete one-cell reference field and query grid. -/
theorem nn_dist_output_shape_attrs_witness :
    (ref1.data.length = ref1.yt_ocean.length
      ∧ (∀ k1, k1 < ref1.xt_ocean.length →
          (colAt ref1 k1).any (fun o => o.isSome) = true)
      ∧ ref1.xt_ocean.length ≠ 0
      ∧ [((1 : ℚ), (2 : ℚ))].length = ref1.yt_ocean.length * ref1.xt_ocean.length)
    ∧ (∃ p cs, nn_dist (fun _ _ => 0) ref1 [(1, 2)] none none = some p
      ∧ ice_coords ref1 = some cs
      ∧ p.1.dims = ["time", "yt_ocean", "xt_ocean"]
      ∧ p.1.time = [ref1.time]
      ∧ p.1.yt_ocean = ref1.yt_ocean ∧ p.1.xt_ocean = ref1.xt_ocean
      ∧ p.1.units = "km" ∧ p.1.long_name = "distance to nearest neighbour"
      ∧ p.1.data.length = ref1.yt_ocean.length
      ∧ (∀ row ∈ p.1.data, row.length = ref1.xt_ocean.length)
      ∧ (∀ j k, j < ref1.yt_ocean.length → k < ref1.xt_ocean.length →
          (p.1.data.getD j []).getD k 0
            = 6371 * rminList ((cs.map deg2rad).map (fun r =>
                ((fun _ _ => (0 : ℝ)) : ℝ × ℝ → ℝ × ℝ → ℝ) r
                  ((([((1 : ℚ), (2 : ℚ))].getD (j * ref1.xt_ocean.length + k) (0, 0)).1 : ℝ),
                   (([((1 : ℚ), (2 : ℚ))].getD (j * ref1.xt_ocean.length + k) (0, 0)).2 : ℝ)))))) :=
  ⟨⟨by decide, by decide, by decide, by decide⟩,
    nn_dist_output_shape_attrs (fun _ _ => 0) ref1 [(1, 2)] none none
      (by decide) (by decide) (by decide) (by decide)⟩

/-- C7 evaluation at the failing input: calling `nn_dist` with an output
folder but no filename stem writes no file, raises no exception and still
returns the distance field — but it also records no warning (line 177 of
the source is a bare string expression, a no-op), contrary to the claim
that a warning is issued.  With both folder and stem, the file
`{stem}_{year}-{month:02d}.nc` is written inside the folder. -/
theorem nn_dist_folder_no_stem_effects :
    ((nn_dist (fun _ _ => 0) ⟨⟨2010, 1⟩, [90], [0], [[some 1]]⟩ [(90, 0)]
        (some "out") none).map (fun p => p.2) = some ⟨some "out", none, []⟩)
    ∧ ((nn_dist (fun _ _ => 0) ⟨⟨2010, 1⟩, [90], [0], [[some 1]]⟩ [(90, 0)]
        (some "out") none).isSome = true)
    ∧ ((nn_dist (fun _ _ => 0) ⟨⟨2010, 1⟩, [90], [0], [[some 1]]⟩ [(90, 0)]
        (some "out") (some "dist")).map (fun p => p.2.wrote)
        = some (some "out/dist_2010-01.nc")) :=
  ⟨rfl, rfl, rfl⟩

/-- The haversine great-circle metric used by sklearn's BallTree: inputs
are (latitude, longitude) in radians, the output is the central angle. -/
noncomputable def haversine (p q : ℝ × ℝ) : ℝ :=
  2 * Real.arcsin (Real.sqrt (Real.sin ((q.1 - p.1) / 2) ^ 2
    + Real.cos p.1 * Real.cos q.1 * Real.sin ((q.2 - p.2) / 2) ^ 2))

/-- C10: `nn_dist` converts only the reference points to radians
(`deg2rad`) before indexing, while the query grid coordinates enter the
haversine metric unchanged; consequently a query point equal in degrees to
a reference point does not yield distance 0: at the concrete reference
field with single reference point (90, 0) and the query grid [(90, 0)]
(degrees), the output cell equals
`6371 * haversine (deg2rad (90, 0)) (90, 0)`, which is strictly
positive. -/
theorem nn_dist_degree_target_nonzero :
    ((nn_dist haversine ⟨⟨2010, 1⟩, [90], [0], [[some 1]]⟩ [(90, 0)] none none).map
        (fun p => p.1.data)
      = some [[6371 * rminList
          [haversine (deg2rad (90, 0)) (((90 : ℚ) : ℝ), ((0 : ℚ) : ℝ))]]])
    ∧ 0 < 6371 * rminList
        [haversine (deg2rad (90, 0)) (((90 : ℚ) : ℝ), ((0 : ℚ) : ℝ))] := by
  constructor
  · rfl
  · have hmin : rminList [haversine (deg2rad (90, 0)) (((90 : ℚ) : ℝ), ((0 : ℚ) : ℝ))]
        = haversine (deg2rad (90, 0)) (((90 : ℚ) : ℝ), ((0 : ℚ) : ℝ)) := by
      simp [rminList]
    have hc90 : ((90 : ℚ) : ℝ) = 90 := by norm_num
    have hc0 : ((0 : ℚ) : ℝ) = 0 := by norm_num
    have hp1 : ((90 : ℚ) : ℝ) * Real.pi / 180 = Real.pi / 2 := by rw [hc90]; ring
    have hp2 : ((0 : ℚ) : ℝ) * Real.pi / 180 = 0 := by rw [hc0]; ring
    have hhav : haversine (deg2rad (90, 0)) (((90 : ℚ) : ℝ), ((0 : ℚ) : ℝ))
        = 2 * Real.arcsin (Real.sqrt (Real.sin ((90 - Real.pi / 2) / 2) ^ 2)) := by
      rw [haversine, deg2rad]
      dsimp only
      rw [hp1, hp2, hc90, hc0, Real.cos_pi_div_two]
      norm_num
    have hsne : Real.sin ((90 - Real.pi / 2) / 2) ≠ 0 := by
      intro h0
      rw [Real.sin_eq_zero_iff] at h0
      obtain ⟨n, hn⟩ := h0
      have hlin : 4 * ((n : ℝ) * Real.pi) + Real.pi = 180 := by linarith
      have hne : (4 * (n : ℝ) + 1) ≠ 0 := by
        intro hz
        have hz1 : ((4 * n + 1 : ℤ) : ℝ) = 0 := by push_cast; linarith
        have hz2 : (4 * n + 1 : ℤ) = 0 := by exact_mod_cast hz1
        omega
      have hpi : Real.pi * (4 * (n : ℝ) + 1) = 180 := by
        ring_nf
        ring_nf at hlin
        linarith
      have hpi2 : Real.pi = 180 / (4 * (n : ℝ) + 1) := by
        rw [eq_div_iff hne]
        exact hpi
      have hrat : Real.pi = ((180 / (4 * (n : ℚ) + 1) : ℚ) : ℝ) := by
        rw [hpi2]
        push_cast
        ring
      exact irrational_pi.ne_rat _ hrat
    have harc : 0 < Real.arcsin |Real.sin ((90 - Real.pi / 2) / 2)| :=
      Real.arcsin_pos.mpr (abs_pos.mpr hsne)
    rw [hmin, hhav, Real.sqrt_sq_eq_abs]
    exact mul_pos (by norm_num) (mul_pos (by norm_num) harc)

/-!
## `ds_sdm` (UsefulFunctions.py lines 235-270)

A prediction data frame is a list of rows (y, x, predicted value, month,
model name); the model name is optional because `df_ready`'s left merge
leaves NaN for unpredicted cells, and the month is a rational because
`groupby(...).mean` averages every numeric column (including month).
`pd.concat` is list concatenation, `Series.unique` is first-occurrence
deduplication, `groupby(sort=True)` sorts the group keys lexicographically,
and the final reshape to `(len(mods), *grid_sample.shape)` requires the row
count to match (`none` models the ValueError).  The resulting per-month
array is kept flattened in (model, y, x) row-major order together with its
`model`/`yt_ocean`/`xt_ocean` coordinates, and the dataset is the list of
(month name, array) entries in first-appearance month order.
-/

structure SRow where
  yq : ℚ
  xq : ℚ
  pred : ℚ
  month : ℚ
  model : Option String
deriving DecidableEq

structure SGrid where
  yt : List ℚ
  xt : List ℚ
deriving DecidableEq

structure MonthDA where
  models : List String
  yt : List ℚ
  xt : List ℚ
  data : List ℚ
deriving DecidableEq

/-- `calendar.month_name` (index 0 is the empty string). -/
def monthNames : List String :=
  ["", "January", "February", "March", "April", "May", "June", "July",
   "August", "September", "October", "November", "December"]

/-- `calendar.month_name[m]` for a month value coming from the data frame;
defined on the integral values 1..12 (other values raise). -/
def monthName (m : ℚ) : Option String :=
  if 1 ≤ m ∧ m ≤ 12 ∧ m.den = 1 then monthNames[m.num.toNat]? else none

/-- Lexicographic order on (y, x) group keys, the order `groupby` with
`sort=True` emits the groups in. -/
def lexle (c d : ℚ × ℚ) : Prop := c.1 < d.1 ∨ (c.1 = d.1 ∧ c.2 ≤ d.2)

/-- Strict lexicographic order on (y, x) pairs. -/
def lexlt (c d : ℚ × ℚ) : Prop := c.1 < d.1 ∨ (c.1 = d.1 ∧ c.2 < d.2)

instance : DecidableRel lexle := fun c d =>
  inferInstanceAs (Decidable (c.1 < d.1 ∨ (c.1 = d.1 ∧ c.2 ≤ d.2)))

instance : IsTotal (ℚ × ℚ) lexle :=
  ⟨fun c d => by
    rcases lt_trichotomy c.1 d.1 with h | h | h
    · exact Or.inl (Or.inl h)
    · rcases le_total c.2 d.2 with h2 | h2
      · exact Or.inl (Or.inr ⟨h, h2⟩)
      · exact Or.inr (Or.inr ⟨h.symm, h2⟩)
    · exact Or.inr (Or.inl h)⟩

instance : IsTrans (ℚ × ℚ) lexle :=
  ⟨fun a b c hab hbc => by
    rcases hab with h1 | ⟨h1, h1'⟩
    · rcases hbc with h2 | ⟨h2, h2'⟩
      · exact Or.inl (lt_trans h1 h2)
      · exact Or.inl (h2 ▸ h1)
    · rcases hbc with h2 | ⟨h2, h2'⟩
      · exact Or.inl (h1 ▸ h2)
      · exact Or.inr ⟨h1.trans h2, le_trans h1' h2'⟩⟩

/-- Lines 254-255: the per-group means (`groupby(['yt_ocean','xt_ocean'])
.mean(...).reset_index()` followed by `mth_mean['model'] = 'Ensemble'`),
with `keys` the sorted distinct group keys of `mth`.  Both numeric columns
(pred and month) are averaged; the model column of every synthesized row is
"Ensemble". -/
def sdmMeanRows (mth : List SRow) (keys : List (ℚ × ℚ)) : List SRow :=
  keys.map (fun c =>
    (⟨c.1, c.2,
      ((mth.filter (fun r => decide (r.yq = c.1 ∧ r.xq = c.2))).map
          (fun r => r.pred)).sum
        / (((mth.filter (fun r => decide (r.yq = c.1 ∧ r.xq = c.2))).length : ℚ)),
      ((mth.filter (fun r => decide (r.yq = c.1 ∧ r.xq = c.2))).map
          (fun r => r.month)).sum
        / (((mth.filter (fun r => decide (r.yq = c.1 ∧ r.xq = c.2))).length : ℚ)),
      some "Ensemble"⟩ : SRow))

/-- One iteration of the month loop (lines 252-264): filter the
concatenated frame to the month, append the Ensemble mean rows, collect
the model names (`dropna().unique()`), reshape the pred column to
(model, y, x) and label it with the month's name. -/
def sdmMonth (df : List SRow) (grid_sample : SGrid) (m : ℚ) :
    Option (String × MonthDA) :=
  let mth := df.filter (fun r => decide (r.month = m))
  let keys := List.insertionSort lexle (uniqueFirst (mth.map (fun r => (r.yq, r.xq))))
  let mth2 := mth ++ sdmMeanRows mth keys
  let mods := uniqueFirst (mth2.filterMap (fun r => r.model))
  if mth2.length = mods.length * (grid_sample.yt.length * grid_sample.xt.length) then
    (monthName m).map (fun nmo =>
      (nmo, ⟨mods, grid_sample.yt, grid_sample.xt, mth2.map (fun r => r.pred)⟩))
  else none

/-- `ds_sdm` (lines 235-270): concatenate the per-model frames and loop
over the distinct months in first-appearance order. -/
def ds_sdm (list_df : List (List SRow)) (grid_sample : SGrid) :
    Option (List (String × MonthDA)) :=
  mapOpt (sdmMonth list_df.flatten grid_sample)
    (uniqueFirst (list_df.flatten.map (fun r => r.month)))

/-- The grid cells in row-major (y outer, x inner) order, the order in
which the target-grid data frame lists them. -/
def cellsList (yt xt : List ℚ) : List (ℚ × ℚ) :=
  yt.flatMap (fun yy => xt.map (fun xx => (yy, xx)))

/-- The grid cells of `grid_sample`. -/
def cellsOf (g : SGrid) : List (ℚ × ℚ) := cellsList g.yt g.xt

theorem mem_cellsList {yt xt : List ℚ} {p : ℚ × ℚ} :
    p ∈ cellsList yt xt ↔ p.1 ∈ yt ∧ p.2 ∈ xt := by
  constructor
  · intro hp
    obtain ⟨yy, hyy, hp2⟩ := List.mem_flatMap.mp hp
    obtain ⟨xx, hxx, hp3⟩ := List.mem_map.mp hp2
    rw [← hp3]
    exact ⟨hyy, hxx⟩
  · intro ⟨h1, h2⟩
    apply List.mem_flatMap.mpr
    exact ⟨p.1, h1, List.mem_map.mpr ⟨p.2, h2, by simp⟩⟩

theorem cellsList_length (yt xt : List ℚ) :
    (cellsList yt xt).length = yt.length * xt.length := by
  induction yt with
  | nil => simp [cellsList]
  | cons y t ih =>
    show (xt.map _ ++ cellsList t xt).length = _
    rw [List.length_append, List.length_map, ih, List.length_cons]
    ring

theorem cellsList_pairwise {yt xt : List ℚ}
    (hy : yt.Pairwise (· < ·)) (hx : xt.Pairwise (· < ·)) :
    (cellsList yt xt).Pairwise lexlt := by
  induction yt with
  | nil => exact List.Pairwise.nil
  | cons y t ih =>
    rcases List.pairwise_cons.mp hy with ⟨hyall, hyt⟩
    show ((xt.map (fun xx => (y, xx))) ++ cellsList t xt).Pairwise lexlt
    apply List.pairwise_append.mpr
    refine ⟨?_, ih hyt, ?_⟩
    · apply List.pairwise_map.mpr
      exact hx.imp (fun h => Or.inr ⟨rfl, h⟩)
    · intro a ha b hb
      obtain ⟨xx, -, rfl⟩ := List.mem_map.mp ha
      have hb1 : b.1 ∈ t := (mem_cellsList.mp hb).1
      exact Or.inl (hyall b.1 hb1)

theorem cellsList_nodup {yt xt : List ℚ}
    (hy : yt.Pairwise (· < ·)) (hx : xt.Pairwise (· < ·)) :
    (cellsList yt xt).Nodup :=
  (cellsList_pairwise hy hx).imp (fun {a b} h => by
    rcases h with h1 | ⟨h1, h2⟩
    · exact fun hab => absurd (congrArg Prod.fst hab) (ne_of_lt h1)
    · exact fun hab => absurd (congrArg Prod.snd hab) (ne_of_lt h2))

theorem cellsList_sorted {yt xt : List ℚ}
    (hy : yt.Pairwise (· < ·)) (hx : xt.Pairwise (· < ·)) :
    (cellsList yt xt).Pairwise lexle :=
  (cellsList_pairwise hy hx).imp (fun {a b} h => by
    rcases h with h1 | ⟨h1, h2⟩
    · exact Or.inl h1
    · exact Or.inr ⟨h1, le_of_lt h2⟩)

theorem cellsList_getD {yt xt : List ℚ} {j k : ℕ}
    (hj : j < yt.length) (hk : k < xt.length) :
    (cellsList yt xt).getD (j * xt.length + k) (0, 0)
      = (yt.getD j 0, xt.getD k 0) := by
  induction yt generalizing j with
  | nil => cases Nat.not_lt_zero j hj
  | cons y t ih =>
    show ((xt.map (fun xx => (y, xx))) ++ cellsList t xt).getD _ _ = _
    cases j with
    | zero =>
      rw [Nat.zero_mul, Nat.zero_add,
        List.getD_append _ _ _ _ (by rw [List.length_map]; exact hk),
        getD_map_of_lt _ _ hk _ 0]
      rfl
    | succ j1 =>
      have hlen : (xt.map (fun xx => (y, xx))).length = xt.length :=
        List.length_map _ _
      have hidx : (j1 + 1) * xt.length + k
          = (xt.map (fun xx => (y, xx))).length + (j1 * xt.length + k) := by
        rw [hlen]
        ring
      rw [hidx, List.getD_eq_getElem?_getD, List.getElem?_append_right (by omega),
        ← List.getD_eq_getElem?_getD]
      have hsub : (xt.map (fun xx => (y, xx))).length + (j1 * xt.length + k)
          - (xt.map (fun xx => (y, xx))).length = j1 * xt.length + k := by omega
      rw [hsub]
      exact ih (by simpa using hj)

theorem uniqueFirst_eq_self {α : Type} [DecidableEq α] :
    ∀ {l : List α}, l.Nodup → uniqueFirst l = l := by
  intro l
  induction l with
  | nil => intro _; simp [uniqueFirst]
  | cons a rest ih =>
    intro h
    rcases List.nodup_cons.mp h with ⟨hna, hrest⟩
    have hfil : rest.filter (fun b => decide (b ≠ a)) = rest := by
      apply List.filter_eq_self.mpr
      intro b hb
      simp only [decide_eq_true_eq]
      intro hba
      exact hna (hba ▸ hb)
    rw [uniqueFirst, hfil, ih hrest]

theorem uniqueFirst_append_subset {α : Type} [DecidableEq α] :
    ∀ (l1 l2 : List α), (∀ b ∈ l2, b ∈ l1) → uniqueFirst (l1 ++ l2) = uniqueFirst l1 := by
  have main : ∀ (n : ℕ) (l1 l2 : List α), l1.length ≤ n → (∀ b ∈ l2, b ∈ l1) →
      uniqueFirst (l1 ++ l2) = uniqueFirst l1 := by
    intro n
    induction n with
    | zero =>
      intro l1 l2 hlen hsub
      have h1 : l1 = [] := List.eq_nil_of_length_eq_zero (Nat.le_zero.mp hlen)
      subst h1
      have h2 : l2 = [] := by
        apply List.eq_nil_iff_forall_not_mem.mpr
        intro b hb
        cases hsub b hb
      subst h2
      rfl
    | succ n ih =>
      intro l1 l2 hlen hsub
      cases l1 with
      | nil =>
        have h2 : l2 = [] := by
          apply List.eq_nil_iff_forall_not_mem.mpr
          intro b hb
          cases hsub b hb
        subst h2
        rfl
      | cons a t =>
        rw [List.cons_append, uniqueFirst, uniqueFirst, List.filter_append]
        congr 1
        apply ih
        · have := List.length_filter_le (fun b => decide (b ≠ a)) t
          have := List.length_cons a t ▸ hlen
          omega
        · intro b hb
          rcases List.mem_filter.mp hb with ⟨hb2, hbne⟩
          have hbl1 : b ∈ a :: t := hsub b hb2
          rcases List.mem_cons.mp hbl1 with rfl | hbt
          · simp at hbne
          · exact List.mem_filter.mpr ⟨hbt, hbne⟩
  intro l1 l2 hsub
  exact main l1.length l1 l2 (le_refl _) hsub

theorem filter_ne_of_all_eq {α : Type} [DecidableEq α] {l : List α} {a : α}
    (h : ∀ b ∈ l, b = a) : l.filter (fun b => decide (b ≠ a)) = [] := by
  apply List.filter_eq_nil_iff.mpr
  intro b hb
  simp [h b hb]

theorem uniqueFirst_const {α : Type} [DecidableEq α] {l : List α} {a : α}
    (h : ∀ b ∈ l, b = a) (hne : l ≠ []) : uniqueFirst l = [a] := by
  cases l with
  | nil => cases hne rfl
  | cons b rest =>
    have hba : b = a := h b (List.mem_cons_self b rest)
    subst hba
    rw [uniqueFirst, filter_ne_of_all_eq (fun c hc => h c (List.mem_cons_of_mem b hc))]
    simp [uniqueFirst]

theorem filter_replicate_ne {α : Type} [DecidableEq α] (n : ℕ) (a : α) :
    (List.replicate n a).filter (fun b => decide (b ≠ a)) = [] :=
  filter_ne_of_all_eq (fun b hb => (List.mem_replicate.mp hb).2)

/-- Deduplicating a concatenation of constant blocks in first-occurrence
order lists each block's value once, in block order. -/
theorem uniqueFirst_blocks :
    ∀ (names : List String) (N : ℕ), 0 < N → names.Nodup →
      ∀ e : String, e ∉ names →
        uniqueFirst ((names.map (fun nmi => List.replicate N nmi)).flatten
            ++ List.replicate N e)
          = names ++ [e] := by
  intro names
  induction names with
  | nil =>
    intro N hN _ e _
    simp only [List.map_nil, List.flatten_nil, List.nil_append]
    exact uniqueFirst_const (fun b hb => (List.mem_replicate.mp hb).2)
      (by
        intro hc
        have hlen := congrArg List.length hc
        rw [List.length_replicate] at hlen
        simp at hlen
        omega)
  | cons nm0 rest ih =>
    intro N hN hnodup e he
    rcases List.nodup_cons.mp hnodup with ⟨hn0, hrest⟩
    obtain ⟨N1, rfl⟩ : ∃ N1, N = N1 + 1 := ⟨N - 1, by omega⟩
    have hshape : ((nm0 :: rest).map (fun nmi => List.replicate (N1 + 1) nmi)).flatten
        ++ List.replicate (N1 + 1) e
        = nm0 :: ((List.replicate N1 nm0
            ++ ((rest.map (fun nmi => List.replicate (N1 + 1) nmi)).flatten
              ++ List.replicate (N1 + 1) e))) := by
      simp [List.replicate_succ]
    rw [hshape, uniqueFirst, List.filter_append, List.filter_append,
      filter_replicate_ne]
    have hrest_ne : ∀ b ∈ (rest.map (fun nmi => List.replicate (N1 + 1) nmi)).flatten,
        b ≠ nm0 := by
      intro b hb
      obtain ⟨t, ht, hbt⟩ := List.mem_flatten.mp hb
      obtain ⟨nmi, hnmi, rfl⟩ := List.mem_map.mp ht
      have : b = nmi := (List.mem_replicate.mp hbt).2
      subst this
      intro hcon
      exact hn0 (hcon ▸ hnmi)
    have h1 : ((rest.map (fun nmi => List.replicate (N1 + 1) nmi)).flatten).filter
        (fun b => decide (b ≠ nm0))
        = (rest.map (fun nmi => List.replicate (N1 + 1) nmi)).flatten := by
      apply List.filter_eq_self.mpr
      intro b hb
      simpa using hrest_ne b hb
    have h2 : (List.replicate (N1 + 1) e).filter (fun b => decide (b ≠ nm0))
        = List.replicate (N1 + 1) e := by
      apply List.filter_eq_self.mpr
      intro b hb
      have : b = e := (List.mem_replicate.mp hb).2
      subst this
      simp only [decide_eq_true_eq]
      intro hcon
      exact he (hcon ▸ List.mem_cons_self nm0 rest)
    rw [List.nil_append, h1, h2,
      ih (N1 + 1) (Nat.succ_pos N1) hrest e (fun hc => he (List.mem_cons_of_mem nm0 hc))]
    rfl

/-- Flattening a list of singleton lists is a map. -/
theorem flatten_singletons {α β : Type} (f : α → β) :
    ∀ l : List α, (l.map (fun a => [f a])).flatten = l.map f := by
  intro l
  induction l with
  | nil => rfl
  | cons a rest ih => simp [ih]

/-- On a list without duplicates, filtering for one of its members keeps
exactly that member. -/
theorem nodup_filter_key {l : List (ℚ × ℚ)} {c : ℚ × ℚ}
    (hnd : l.Nodup) (hc : c ∈ l) :
    l.filter (fun c1 => decide (c1.1 = c.1 ∧ c1.2 = c.2)) = [c] := by
  induction l with
  | nil => cases hc
  | cons a t ih =>
    rcases List.nodup_cons.mp hnd with ⟨hna, hnt⟩
    rcases List.mem_cons.mp hc with rfl | hct
    · have hstep : List.filter (fun c1 => decide (c1.1 = c.1 ∧ c1.2 = c.2)) (c :: t)
          = c :: List.filter (fun c1 => decide (c1.1 = c.1 ∧ c1.2 = c.2)) t := by
        simp [List.filter_cons]
      rw [hstep]
      congr 1
      apply List.filter_eq_nil_iff.mpr
      intro b hb
      simp only [decide_eq_true_eq, not_and]
      intro h1 h2
      have hbc : b = c := Prod.ext h1 h2
      exact absurd (hbc ▸ hb) hna
    · have hane : ¬(a.1 = c.1 ∧ a.2 = c.2) := by
        intro ⟨h1, h2⟩
        have : a = c := Prod.ext h1 h2
        exact hna (this ▸ hct)
      have hstep : List.filter (fun c1 => decide (c1.1 = c.1 ∧ c1.2 = c.2)) (a :: t)
          = List.filter (fun c1 => decide (c1.1 = c.1 ∧ c1.2 = c.2)) t := by
        simp [List.filter_cons, hane]
      rw [hstep]
      exact ih hnt hct

theorem getD_append_right {α : Type} (l1 l2 : List α) (d : α) {n : ℕ}
    (h : l1.length ≤ n) : (l1 ++ l2).getD n d = l2.getD (n - l1.length) d := by
  rw [List.getD_eq_getElem?_getD, List.getElem?_append_right h,
    List.getD_eq_getElem?_getD]

theorem sdmMeanRows_length (mth : List SRow) (keys : List (ℚ × ℚ)) :
    (sdmMeanRows mth keys).length = keys.length := by
  rw [sdmMeanRows]
  exact List.length_map _ _

theorem sdmMeanRows_filterMap_model (mth : List SRow) :
    ∀ keys : List (ℚ × ℚ),
      (sdmMeanRows mth keys).filterMap (fun r => r.model)
        = List.replicate keys.length "Ensemble" := by
  intro keys
  induction keys with
  | nil => rfl
  | cons c t ih =>
    show "Ensemble" :: (sdmMeanRows mth t).filterMap (fun r => r.model)
        = List.replicate (c :: t).length "Ensemble"
    rw [ih, List.length_cons, List.replicate_succ]

theorem sdmMeanRows_map_pred (mth : List SRow) (keys : List (ℚ × ℚ)) :
    (sdmMeanRows mth keys).map (fun r => r.pred)
      = keys.map (fun c =>
          ((mth.filter (fun r => decide (r.yq = c.1 ∧ r.xq = c.2))).map
              (fun r => r.pred)).sum
            / (((mth.filter (fun r => decide (r.yq = c.1 ∧ r.xq = c.2))).length : ℚ))) := by
  rw [sdmMeanRows, List.map_map]
  rfl

theorem filterMap_model_const_block {f : ℚ × ℚ → SRow} {s : String}
    (hf : ∀ c, (f c).model = some s) :
    ∀ l : List (ℚ × ℚ),
      (l.map f).filterMap (fun r => r.model) = List.replicate l.length s := by
  intro l
  induction l with
  | nil => rfl
  | cons c t ih =>
    rw [List.map_cons]
    simp [List.filterMap_cons, hf c, ih, List.replicate_succ]

/-- C8: on well-formed single-month inputs — one table per model, each
listing exactly the grid cells in row-major order with distinct model
names, none called "Ensemble" — `ds_sdm` produces one dataset entry keyed
by the month's name whose model axis is the input models followed by a
synthesized "Ensemble" entry (length = number of models + 1), and the
Ensemble block's value at each (y, x) cell is the mean over the input
models of their predicted values at that cell. -/
theorem ds_sdm_ensemble_mean
    (M : ℕ) (hM : 0 < M) (nm : ℕ → String) (v : ℕ → ℚ × ℚ → ℚ) (mo : ℕ)
    (hmo1 : 1 ≤ mo) (hmo2 : mo ≤ 12)
    (grid : SGrid)
    (hgy : grid.yt.Pairwise (· < ·)) (hgx : grid.xt.Pairwise (· < ·))
    (hyne : grid.yt ≠ []) (hxne : grid.xt ≠ [])
    (hinj : ∀ i, i < M → ∀ j, j < M → nm i = nm j → i = j)
    (hens : ∀ i, i < M → nm i ≠ "Ensemble") :
    ∃ nmo da,
      ds_sdm ((List.range M).map (fun i => (cellsOf grid).map (fun c =>
          (⟨c.1, c.2, v i c, (mo : ℚ), some (nm i)⟩ : SRow)))) grid
        = some [(nmo, da)]
      ∧ monthName (mo : ℚ) = some nmo
      ∧ da.models = (List.range M).map nm ++ ["Ensemble"]
      ∧ da.models.length = M + 1
      ∧ (∀ j k, j < grid.yt.length → k < grid.xt.length →
          da.data.getD (M * (grid.yt.length * grid.xt.length)
              + (j * grid.xt.length + k)) 0
            = ((List.range M).map (fun i =>
                v i (grid.yt.getD j 0, grid.xt.getD k 0))).sum / (M : ℚ)) := by
  have hN : (cellsList grid.yt grid.xt).length = grid.yt.length * grid.xt.length :=
    cellsList_length _ _
  have hNpos : 0 < (cellsList grid.yt grid.xt).length := by
    rw [hN]
    exact Nat.mul_pos (List.length_pos.mpr hyne) (List.length_pos.mpr hxne)
  have hnodup : (cellsList grid.yt grid.xt).Nodup := cellsList_nodup hgy hgx
  have hsorted : (cellsList grid.yt grid.xt).Pairwise lexle := cellsList_sorted hgy hgx
  have hnamesnd : ((List.range M).map nm).Nodup :=
    List.Nodup.map_on
      (fun i hi j hj hij => hinj i (List.mem_range.mp hi) j (List.mem_range.mp hj) hij)
      (List.nodup_range M)
  have hensnm : "Ensemble" ∉ (List.range M).map nm := by
    intro hmem
    obtain ⟨i, hi, hi2⟩ := List.mem_map.mp hmem
    exact hens i (List.mem_range.mp hi) hi2
  simp only [cellsOf]
  set cells := cellsList grid.yt grid.xt with hcells
  set tablesX := (List.range M).map (fun i => cells.map (fun c =>
      (⟨c.1, c.2, v i c, (mo : ℚ), some (nm i)⟩ : SRow))) with htables
  set dfX := tablesX.flatten with hdf
  have hmem_df : ∀ r ∈ dfX, ∃ i c, i < M ∧ c ∈ cells
      ∧ r = (⟨c.1, c.2, v i c, (mo : ℚ), some (nm i)⟩ : SRow) := by
    intro r hr
    obtain ⟨t, ht, hrt⟩ := List.mem_flatten.mp hr
    rw [htables] at ht
    obtain ⟨i, hi, rfl⟩ := List.mem_map.mp ht
    obtain ⟨c, hc, rfl⟩ := List.mem_map.mp hrt
    exact ⟨i, c, List.mem_range.mp hi, hc, rfl⟩
  have hdf_len : dfX.length = M * cells.length := by
    rw [hdf, List.length_flatten, htables, List.map_map]
    have hcomp : (List.length ∘ fun i => cells.map (fun c =>
        (⟨c.1, c.2, v i c, (mo : ℚ), some (nm i)⟩ : SRow))) = fun _ => cells.length := by
      funext i
      simp
    rw [hcomp, List.map_const', List.sum_replicate, List.length_range, smul_eq_mul]
  have hdf_ne : dfX ≠ [] := by
    intro h0
    have hl := congrArg List.length h0
    rw [hdf_len] at hl
    simp only [List.length_nil] at hl
    rcases Nat.mul_eq_zero.mp hl with h | h
    · omega
    · omega
  have hmonths : uniqueFirst (dfX.map (fun r => r.month)) = [(mo : ℚ)] := by
    apply uniqueFirst_const
    · intro q hq
      obtain ⟨r, hr, rfl⟩ := List.mem_map.mp hq
      obtain ⟨i, c, -, -, rfl⟩ := hmem_df r hr
      rfl
    · intro h0
      exact hdf_ne (List.map_eq_nil_iff.mp h0)
  have hfilter : dfX.filter (fun r => decide (r.month = (mo : ℚ))) = dfX := by
    apply List.filter_eq_self.mpr
    intro r hr
    obtain ⟨i, c, -, -, rfl⟩ := hmem_df r hr
    simp
  have hkeysraw : dfX.map (fun r => (r.yq, r.xq)) = (List.replicate M cells).flatten := by
    rw [hdf, List.map_flatten, htables, List.map_map]
    have hcomp : (List.map (fun r : SRow => (r.yq, r.xq)) ∘ fun i => cells.map (fun c =>
        (⟨c.1, c.2, v i c, (mo : ℚ), some (nm i)⟩ : SRow))) = fun _ => cells := by
      funext i
      show List.map (fun r : SRow => (r.yq, r.xq)) (cells.map (fun c =>
          (⟨c.1, c.2, v i c, (mo : ℚ), some (nm i)⟩ : SRow))) = cells
      rw [List.map_map]
      have hid : ((fun r : SRow => (r.yq, r.xq)) ∘ (fun c : ℚ × ℚ =>
          (⟨c.1, c.2, v i c, (mo : ℚ), some (nm i)⟩ : SRow))) = fun c : ℚ × ℚ => c := by
        funext c
        rfl
      rw [hid]
      simp
    rw [hcomp, List.map_const', List.length_range]
  have hUFkeys : uniqueFirst (dfX.map (fun r => (r.yq, r.xq))) = cells := by
    rw [hkeysraw]
    obtain ⟨M1, rfl⟩ : ∃ M1, M = M1 + 1 := ⟨M - 1, by omega⟩
    rw [List.replicate_succ, List.flatten_cons]
    have hsub : ∀ b ∈ (List.replicate M1 cells).flatten, b ∈ cells := by
      intro b hb
      obtain ⟨t, ht, hbt⟩ := List.mem_flatten.mp hb
      have hteq : t = cells := (List.mem_replicate.mp ht).2
      exact hteq ▸ hbt
    rw [uniqueFirst_append_subset _ _ hsub, uniqueFirst_eq_self hnodup]
  have hsortkeys : List.insertionSort lexle cells = cells :=
    List.Sorted.insertionSort_eq hsorted
  have hgrp : ∀ c ∈ cells,
      dfX.filter (fun r => decide (r.yq = c.1 ∧ r.xq = c.2))
        = (List.range M).map (fun i =>
            (⟨c.1, c.2, v i c, (mo : ℚ), some (nm i)⟩ : SRow)) := by
    intro c hc
    rw [hdf, List.filter_flatten, htables, List.map_map]
    have hcomp : (List.filter (fun r : SRow => decide (r.yq = c.1 ∧ r.xq = c.2))
        ∘ fun i => cells.map (fun c1 =>
            (⟨c1.1, c1.2, v i c1, (mo : ℚ), some (nm i)⟩ : SRow)))
        = fun i => [(⟨c.1, c.2, v i c, (mo : ℚ), some (nm i)⟩ : SRow)] := by
      funext i
      rw [Function.comp_apply, List.filter_map]
      have hpc : ((fun r : SRow => decide (r.yq = c.1 ∧ r.xq = c.2))
          ∘ fun c1 => (⟨c1.1, c1.2, v i c1, (mo : ℚ), some (nm i)⟩ : SRow))
          = fun c1 : ℚ × ℚ => decide (c1.1 = c.1 ∧ c1.2 = c.2) := by
        funext c1
        rfl
      rw [hpc, nodup_filter_key hnodup hc]
      rfl
    rw [hcomp]
    exact flatten_singletons
      (fun i => (⟨c.1, c.2, v i c, (mo : ℚ), some (nm i)⟩ : SRow)) (List.range M)
  have hmodsraw : (dfX ++ sdmMeanRows dfX cells).filterMap (fun r => r.model)
      = (((List.range M).map nm).map (fun nmi => List.replicate cells.length nmi)).flatten
        ++ List.replicate cells.length "Ensemble" := by
    rw [List.filterMap_append, sdmMeanRows_filterMap_model]
    congr 1
    rw [hdf, List.filterMap_flatten, htables, List.map_map]
    have hcomp : (List.filterMap (fun r : SRow => r.model) ∘ fun i => cells.map (fun c =>
        (⟨c.1, c.2, v i c, (mo : ℚ), some (nm i)⟩ : SRow)))
        = fun i => List.replicate cells.length (nm i) := by
      funext i
      rw [Function.comp_apply]
      exact filterMap_model_const_block (fun c => rfl) cells
    rw [hcomp, List.map_map]
    rfl
  have hmods : uniqueFirst ((dfX ++ sdmMeanRows dfX cells).filterMap (fun r => r.model))
      = (List.range M).map nm ++ ["Ensemble"] := by
    rw [hmodsraw]
    exact uniqueFirst_blocks ((List.range M).map nm) cells.length hNpos hnamesnd
      "Ensemble" hensnm
  have hcond : (dfX ++ sdmMeanRows dfX cells).length
      = ((List.range M).map nm ++ ["Ensemble"]).length
        * (grid.yt.length * grid.xt.length) := by
    rw [List.length_append, hdf_len, sdmMeanRows_length, List.length_append,
      List.length_map, List.length_range, ← hN]
    simp only [List.length_cons, List.length_nil]
    ring
  have hmonthname : monthName (mo : ℚ) = some (monthNames.getD mo "") := by
    have hc : 1 ≤ (mo : ℚ) ∧ (mo : ℚ) ≤ 12 ∧ ((mo : ℚ)).den = 1 :=
      ⟨by exact_mod_cast hmo1, by exact_mod_cast hmo2, Rat.den_natCast mo⟩
    rw [monthName, if_pos hc]
    have hnum : ((mo : ℚ)).num.toNat = mo := by
      rw [Rat.num_natCast]
      exact Int.toNat_natCast mo
    rw [hnum]
    have hmlt : mo < monthNames.length := by
      simp only [monthNames, List.length_cons, List.length_nil]
      omega
    rw [List.getElem?_eq_getElem hmlt, List.getD_eq_getElem?_getD,
      List.getElem?_eq_getElem hmlt]
    rfl
  have hsdm : sdmMonth dfX grid (mo : ℚ)
      = some (monthNames.getD mo "",
          ⟨(List.range M).map nm ++ ["Ensemble"], grid.yt, grid.xt,
            (dfX ++ sdmMeanRows dfX cells).map (fun r => r.pred)⟩) := by
    rw [sdmMonth]
    simp only [hfilter, hUFkeys, hsortkeys, hmods]
    rw [if_pos hcond, hmonthname]
    rfl
  refine ⟨monthNames.getD mo "",
    ⟨(List.range M).map nm ++ ["Ensemble"], grid.yt, grid.xt,
      (dfX ++ sdmMeanRows dfX cells).map (fun r => r.pred)⟩,
    ?_, hmonthname, rfl, ?_, ?_⟩
  · rw [ds_sdm]
    rw [hmonths]
    rw [mapOpt, hsdm]
    rfl
  · simp
  · intro j k hj hk
    have hAlen : (dfX.map (fun r => r.pred)).length
        = M * (grid.yt.length * grid.xt.length) := by
      rw [List.length_map, hdf_len, hN]
    dsimp only
    rw [List.map_append, getD_append_right _ _ _ (by rw [hAlen]; omega)]
    rw [hAlen, Nat.add_sub_cancel_left]
    have hidx : j * grid.xt.length + k < cells.length := by
      rw [hN]
      have h1 : j * grid.xt.length + k < j * grid.xt.length + grid.xt.length :=
        Nat.add_lt_add_left hk _
      have h2 : j * grid.xt.length + grid.xt.length = (j + 1) * grid.xt.length := by
        ring
      have h3 : (j + 1) * grid.xt.length ≤ grid.yt.length * grid.xt.length :=
        Nat.mul_le_mul_right _ hj
      omega
    rw [sdmMeanRows_map_pred, getD_map_of_lt _ _ hidx _ ((0 : ℚ), (0 : ℚ))]
    have hcD : cells.getD (j * grid.xt.length + k) (0, 0)
        = (grid.yt.getD j 0, grid.xt.getD k 0) := cellsList_getD hj hk
    have hcmem : cells.getD (j * grid.xt.length + k) (0, 0) ∈ cells := by
      rw [List.getD_eq_getElem?_getD, List.getElem?_eq_getElem hidx]
      exact List.getElem_mem hidx
    rw [hcD] at hcmem
    rw [hcD]
    have hgrpc := hgrp _ hcmem
    rw [hgrpc, List.map_map, List.length_map, List.length_range]
    rfl

def nm2 : ℕ → String := fun i => if i = 0 then "GAM" else "RF"

def v2 : ℕ → ℚ × ℚ → ℚ := fun i _ => if i = 0 then 10 else 20

/-- Witness for C8: two models predicting 10 and 20 at the single cell of
a 1×1 grid in January; the Ensemble value is their mean. -/
theorem ds_sdm_ensemble_mean_witness :
    ((0 : ℕ) < 2 ∧ (1 : ℕ) ≤ 1 ∧ (1 : ℕ) ≤ 12
      ∧ (SGrid.mk [5] [7]).yt.Pairwise (· < ·)
      ∧ (SGrid.mk [5] [7]).xt.Pairwise (· < ·)
      ∧ (SGrid.mk [5] [7]).yt ≠ [] ∧ (SGrid.mk [5] [7]).xt ≠ []
      ∧ (∀ i, i < 2 → ∀ j, j < 2 → nm2 i = nm2 j → i = j)
      ∧ (∀ i, i < 2 → nm2 i ≠ "Ensemble"))
    ∧ (∃ nmo da, ds_sdm ((List.range 2).map (fun i => (cellsOf ⟨[5], [7]⟩).map (fun c =>
          (⟨c.1, c.2, v2 i c, ((1 : ℕ) : ℚ), some (nm2 i)⟩ : SRow)))) ⟨[5], [7]⟩
        = some [(nmo, da)]
      ∧ monthName ((1 : ℕ) : ℚ) = some nmo
      ∧ da.models = (List.range 2).map nm2 ++ ["Ensemble"]
      ∧ da.models.length = 2 + 1
      ∧ (∀ j k, j < (SGrid.mk [5] [7]).yt.length → k < (SGrid.mk [5] [7]).xt.length →
          da.data.getD (2 * ((SGrid.mk [5] [7]).yt.length * (SGrid.mk [5] [7]).xt.length)
              + (j * (SGrid.mk [5] [7]).xt.length + k)) 0
            = ((List.range 2).map (fun i =>
                v2 i ((SGrid.mk [5] [7]).yt.getD j 0,
                      (SGrid.mk [5] [7]).xt.getD k 0))).sum / ((2 : ℕ) : ℚ))) :=
  ⟨⟨by decide, by decide, by decide, by decide, by decide, by decide, by decide,
      by decide, by decide⟩,
    ds_sdm_ensemble_mean 2 (by decide) nm2 v2 1 (by decide) (by decide) ⟨[5], [7]⟩
      (by decide) (by decide) (by decide) (by decide) (by decide) (by decide)⟩

end Crabeaters
